import Mathlib

/-
Shallow embedding of the git activity metrics engine of the pulse
repository (the `lib/metrics` module and the `metrics` command):

* data model (`RepoMetrics`, `GitMetrics`, `Repository`, `Block`),
* repository identifier parsing (`parseRepoIdentifier`, including a
  character-level embedding of the GitHub URL regex with its
  backtracking and leftmost-match semantics),
* the local collector `computeLocalRepoMetrics` and the remote collector
  `computeGitHubRepoMetrics`, with the external effects (git subprocess,
  HTTP) abstracted as oracles describing the responses of each
  invocation,
* per-day first-commit deduplication (`getFirstCommitPerDay`),
* aggregation (`aggregateRepoMetrics`, `computeGitMetrics`) and the
  metrics command's cache behaviour (`runMetrics`).

Timestamps are modelled as milliseconds since the Unix epoch (`Int`),
which is exactly the value of `Date.getTime()`; JS `number` arithmetic
on commit counts and day averages is modelled with `ℚ`.
-/

/-- Per-repository (or synthetic totals) metrics record, mirroring the
`RepoMetrics` shape returned by both collectors. -/
structure RepoMetrics where
  commits : Nat
  linesAdded : Int
  linesRemoved : Int
  filesChanged : Nat
  testFilesChanged : Nat
  docFilesChanged : Nat
  avgCommitsPerDay : ℚ
  firstCommitTimes : List Int
deriving DecidableEq

/-- A configured repository entry `{path, branch?}`. -/
structure Repository where
  path : String
  branch : Option String
deriving DecidableEq

/-- The block supplying the date window: `{id, startDate, endDate?}`. -/
structure Block where
  id : String
  startDate : Int
  endDate : Option Int
deriving DecidableEq

/-- The cached per-block document `GitMetrics`.  The `repositories`
record is modelled as an association list in key-insertion order, which
is how a JS object iterates. -/
structure GitMetrics where
  block : String
  computedAt : Int
  dateRangeStart : Int
  dateRangeEnd : Int
  repositories : List (String × RepoMetrics)
  totals : RepoMetrics
deriving DecidableEq

/-- UTC calendar day of an epoch-milliseconds timestamp.  The source
uses `date.toISOString().split("T")[0]` as the day key; two timestamps
get the same key exactly when their floor-divisions by 86400000 ms (one
UTC day, JS time has no leap seconds) agree. -/
def epochDay (t : Int) : Int := Int.fdiv t 86400000

/-- One `byDay.set(dayKey, date)` step of `getFirstCommitPerDay`:
store `t` under day `k`, keeping the earlier timestamp on collision
(`if (!existing || commit.date < existing)`), and keeping the original
key position as a JS `Map` does. -/
def insertDay : List (Int × Int) → Int → Int → List (Int × Int)
  | [], k, t => [(k, t)]
  | (k₁, t₁) :: rest, k, t =>
    if k₁ = k then (k₁, if t < t₁ then t else t₁) :: rest
    else (k₁, t₁) :: insertDay rest k t

/-- The `byDay` map after the loop of `getFirstCommitPerDay`. -/
def buildByDay (ts : List Int) : List (Int × Int) :=
  ts.foldl (fun m t => insertDay m (epochDay t) t) []

/-- `getFirstCommitPerDay`: for each UTC calendar day keep only the
earliest timestamp, then sort ascending by instant
(`.sort((a, b) => a.getTime() - b.getTime())`; the comparator sort is
embedded as an insertion sort on `≤`, which produces the same sorted
permutation). -/
def getFirstCommitPerDay (ts : List Int) : List Int :=
  List.insertionSort (· ≤ ·) ((buildByDay ts).map Prod.snd)

/-- `Math.ceil((end - start) / (1000*60*60*24))` clamped to at least 1:
the `days` denominator used by both collectors. -/
def windowDays (startMs endMs : Int) : Int :=
  max 1 ⌈(((endMs - startMs : Int) : ℚ) / 86400000)⌉

/-- JS `Math.round`: round half toward positive infinity. -/
def jsRound (q : ℚ) : Int := ⌊q + 1/2⌋

/- =====================================================================
   File classification (`isTestFile` / `isDocFile`), character level.
   ===================================================================== -/

/-- Match the literal `lit` at the front of `cs`; on success return the
rest.  This is the primitive from which the regex embedding and the
`includes`/`startsWith` string tests are built. -/
def dropLit : List Char → List Char → Option (List Char)
  | [], cs => some cs
  | _, [] => none
  | l :: ls, c :: cs => if c = l then dropLit ls cs else none

/-- `hay.includes(needle)`. -/
def hasSubstr (hay needle : List Char) : Bool :=
  match hay with
  | [] => needle.isEmpty
  | c :: rest => (dropLit needle (c :: rest)).isSome || hasSubstr rest needle

/-- `isTestFile`: case-insensitive test-path categorisation. -/
def isTestFile (path : List Char) : Bool :=
  let lower := path.map Char.toLower
  hasSubstr lower ['.', 't', 'e', 's', 't', '.'] ||
  hasSubstr lower ['.', 's', 'p', 'e', 'c', '.'] ||
  hasSubstr lower ['_', '_', 't', 'e', 's', 't', '_', '_'] ||
  hasSubstr lower ['_', '_', 't', 'e', 's', 't', 's', '_', '_'] ||
  hasSubstr lower ['/', 't', 'e', 's', 't', '/'] ||
  hasSubstr lower ['/', 't', 'e', 's', 't', 's', '/']

/-- `isDocFile`: case-insensitive documentation-path categorisation. -/
def isDocFile (path : List Char) : Bool :=
  let lower := path.map Char.toLower
  List.isSuffixOf ['.', 'm', 'd'] lower ||
  List.isSuffixOf ['.', 'r', 's', 't'] lower ||
  List.isSuffixOf ['.', 't', 'x', 't'] lower ||
  (dropLit ['r', 'e', 'a', 'd', 'm', 'e'] lower).isSome ||
  hasSubstr lower ['/', 'd', 'o', 'c', 's', '/'] ||
  hasSubstr lower ['/', 'd', 'o', 'c', '/']

/- =====================================================================
   Repository identifier parsing (`parseRepoIdentifier`).

   The GitHub URL test is
   `repo.match(/(?:https?:\/\/)?(?:www\.)?github\.com\/([^\/]+)\/([^\/]+?)(?:\.git)?$/)`.
   Note the pattern is anchored only at the end (`$`), not at the start,
   and `String.match` returns the leftmost match.  The embedding below
   reproduces the engine's behaviour: try each start position from the
   left; at a position, try the optional scheme and optional `www.`
   with backtracking, then the literal `github.com/`, then a greedy
   slash-free owner, `/`, a lazy slash-free repo and an optional
   trailing `.git` reaching the end of the string.
   ===================================================================== -/

/-- Parsed repository identifier: `{type:"local"} | {type:"github"}`. -/
inductive RepoIdentifier where
  | localPath (path : List Char)
  | github (owner repo : List Char)
deriving DecidableEq

def httpsChars : List Char := ['h', 't', 't', 'p', 's', ':', '/', '/']
def httpChars : List Char := ['h', 't', 't', 'p', ':', '/', '/']
def wwwChars : List Char := ['w', 'w', 'w', '.']
def ghHostChars : List Char := ['g', 'i', 't', 'h', 'u', 'b', '.', 'c', 'o', 'm', '/']
def dotGitChars : List Char := ['.', 'g', 'i', 't']

/-- After `github.com/`: greedy `([^\/]+)`, a `/`, then the lazy
`([^\/]+?)(?:\.git)?$`.  The lazy repo group prefers the shortest
repo, so a trailing `.git` is stripped whenever the remainder is at
least five characters long. -/
def matchOwnerRepo (cs : List Char) : Option (List Char × List Char) :=
  let owner := cs.takeWhile (· ≠ '/')
  match owner, cs.dropWhile (· ≠ '/') with
  | [], _ => none
  | _ :: _, [] => none
  | o, _ :: cs₂ =>
    if cs₂.any (· = '/') then none
    else if 5 ≤ cs₂.length ∧ cs₂.drop (cs₂.length - 4) = dotGitChars then
      some (o, cs₂.take (cs₂.length - 4))
    else if cs₂.isEmpty then none
    else some (o, cs₂)

/-- Regex alternation: commit to the first branch when it produces a
match, otherwise backtrack into the second. -/
def tryFirst {α : Type} (a b : Option α) : Option α :=
  match a with
  | some res => some res
  | none => b

/-- `github.com/` then owner/repo. -/
def matchHost (cs : List Char) : Option (List Char × List Char) :=
  (dropLit ghHostChars cs).bind matchOwnerRepo

/-- Optional `www.` (present tried first, with backtracking) then the
host. -/
def matchHereWWW (cs : List Char) : Option (List Char × List Char) :=
  tryFirst ((dropLit wwwChars cs).bind matchHost) (matchHost cs)

/-- Optional `https?://` (the alternatives `https://`, `http://`,
absent, in the engine's preference order) then the rest of the
pattern, at a fixed start position. -/
def matchGithubHere (cs : List Char) : Option (List Char × List Char) :=
  tryFirst ((dropLit httpsChars cs).bind matchHereWWW)
    (tryFirst ((dropLit httpChars cs).bind matchHereWWW) (matchHereWWW cs))

/-- Leftmost match of the (end-anchored) GitHub URL pattern: try every
start position from the left. -/
def findGithubMatch : List Char → Option (List Char × List Char)
  | [] => none
  | c :: cs => tryFirst (matchGithubHere (c :: cs)) (findGithubMatch cs)

/-- The shorthand test `repo.match(/^([^\/]+)\/([^\/]+)$/)`. -/
def matchShortForm (cs : List Char) : Option (List Char × List Char) :=
  let owner := cs.takeWhile (· ≠ '/')
  match owner, cs.dropWhile (· ≠ '/') with
  | [], _ => none
  | _ :: _, [] => none
  | o, _ :: cs₂ =>
    if cs₂.any (· = '/') then none
    else if cs₂.isEmpty then none
    else some (o, cs₂)

/-- Leading `/`, `~` or `.` marks a local path. -/
def startsWithPathMarker : List Char → Bool
  | [] => false
  | c :: _ => c = '/' || c = '~' || c = '.'

/-- `repo.startsWith("~") ? repo.replace("~", home) : repo` — the
replaced occurrence is the leading one. -/
def expandTilde (home : List Char) : List Char → List Char
  | '~' :: rest => home ++ rest
  | cs => cs

/-- `parseRepoIdentifier`, with the home directory passed explicitly
(the source reads `Deno.env.get("HOME") || ""`). -/
def parseRepoIdentifier (home cs : List Char) : RepoIdentifier :=
  if startsWithPathMarker cs then
    .localPath (expandTilde home cs)
  else
    match findGithubMatch cs with
    | some (o, r) => .github o r
    | none =>
      match matchShortForm cs with
      | some (o, r) => .github o r
      | none => .localPath cs

/- =====================================================================
   Specification-side predicates used to state the classification
   claims about `parseRepoIdentifier`.
   ===================================================================== -/

/-- `cs` decomposes as `owner ++ "/" ++ repo` with a possible trailing
`".git"`, owner and repo nonempty and slash-free — the part of the URL
pattern after `github.com/`. -/
def OwnerRepoTail (cs o r : List Char) : Prop :=
  o ≠ [] ∧ '/' ∉ o ∧ r ≠ [] ∧ '/' ∉ r ∧
    (cs = o ++ '/' :: (r ++ dotGitChars) ∨ cs = o ++ '/' :: r)

/-- `cs` matches the whole URL pattern anchored at its start: optional
scheme, optional `www.`, literal `github.com/`, then owner/repo. -/
def UrlTail (cs o r : List Char) : Prop :=
  ∃ sch www tail,
    (sch = httpsChars ∨ sch = httpChars ∨ sch = []) ∧
    (www = wwwChars ∨ www = []) ∧
    cs = sch ++ www ++ ghHostChars ++ tail ∧ OwnerRepoTail tail o r

/-- `cs` contains an (end-anchored) occurrence of the URL pattern
starting at some position — the condition under which the unanchored
regex of the source matches. -/
def HasUrl (cs : List Char) : Prop :=
  ∃ pre suf o r, cs = pre ++ suf ∧ UrlTail suf o r

/-- `cs` is exactly `owner/repo` with both segments nonempty and
slash-free — the shorthand pattern. -/
def ShortForm (cs o r : List Char) : Prop :=
  o ≠ [] ∧ '/' ∉ o ∧ r ≠ [] ∧ '/' ∉ r ∧ cs = o ++ '/' :: r

/-- Modelled from the claim (and spec §4.1 as the claim reads it): the
same ordered classification, but with the URL pattern anchored at the
START of the string as well, i.e. the host must be exactly
`github.com` (after an optional scheme and `www.`).  This is the
classifier the claim describes; the source's regex is anchored only at
the end. -/
def resolveClaim (home cs : List Char) : RepoIdentifier :=
  if startsWithPathMarker cs then
    .localPath (expandTilde home cs)
  else
    match matchGithubHere cs with
    | some (o, r) => .github o r
    | none =>
      match matchShortForm cs with
      | some (o, r) => .github o r
      | none => .localPath cs

/- =====================================================================
   Local collector (`computeLocalRepoMetrics`).

   The four git invocations (`rev-parse --is-inside-work-tree`,
   `config user.email`, `log --format=%H|%aI`, `log --numstat`) are
   abstracted as an oracle holding each invocation's success flag and
   parsed stdout.  A failed or empty stdout of the log / numstat calls
   yields the empty parse, exactly as the source's
   `if (result.success && result.stdout)` guards do.
   ===================================================================== -/

/-- Responses of the git subprocess for one repository.  `logCommits`
are the parsed `hash|authorDate` lines (timestamps in epoch ms);
`numstatRows` are the parsed `added TAB removed TAB path` rows, where
`none` models a `-` placeholder (binary file). -/
structure LocalGitOracle where
  checkSuccess : Bool
  userEmail : Option String
  logSuccess : Bool
  logCommits : List (String × Int)
  numstatSuccess : Bool
  numstatRows : List (Option Nat × Option Nat × List Char)

/-- `computeLocalRepoMetrics`.  Throwing is modelled as `Except.error`. -/
def computeLocalRepoMetrics (o : LocalGitOracle) (startMs endMs : Int) :
    Except String RepoMetrics :=
  if o.checkSuccess = false then
    .error "Not a git repository or path does not exist"
  else
    let commits := if o.logSuccess then o.logCommits else []
    let rows := if o.numstatSuccess then o.numstatRows else []
    let linesAdded : Int := (rows.map (fun row => ((row.1.getD 0 : Nat) : Int))).sum
    let linesRemoved : Int := (rows.map (fun row => ((row.2.1.getD 0 : Nat) : Int))).sum
    let files := (rows.map (fun row => row.2.2)).dedup
    let testFiles := ((rows.map (fun row => row.2.2)).filter isTestFile).dedup
    let docFiles := ((rows.map (fun row => row.2.2)).filter isDocFile).dedup
    .ok
      { commits := commits.length
        linesAdded := linesAdded
        linesRemoved := linesRemoved
        filesChanged := files.length
        testFilesChanged := testFiles.length
        docFilesChanged := docFiles.length
        avgCommitsPerDay := (commits.length : ℚ) / (windowDays startMs endMs : ℚ)
        firstCommitTimes := getFirstCommitPerDay (commits.map Prod.snd) }

/- =====================================================================
   Remote collector (`computeGitHubRepoMetrics`).

   The commit-listing endpoint and the per-commit detail endpoint are
   abstracted as an oracle.  The pagination loop is embedded with a
   structural fuel argument; `none` marks fuel exhaustion and is proved
   unreachable for fuel 51 (the loop's own `page > 50` cap fires
   first).
   ===================================================================== -/

/-- Response of one `GET /repos/{owner}/{repo}/commits?page=p` call. -/
inductive PageResp where
  | ok (commits : List (String × Int))
  | errAuth
  | errNotFound
  | errOther (status : Nat)
deriving DecidableEq

/-- Response of one `GET /repos/{owner}/{repo}/commits/{sha}` call:
`none` models a non-ok response (silently skipped by the source);
`stats = none` models a payload without a `stats` object. -/
structure CommitDetail where
  stats : Option (Nat × Nat)
  files : List (List Char)

/-- Remote API oracle: page `p` of the commit listing, and the detail
response per commit sha. -/
structure GitHubOracle where
  pages : Nat → PageResp
  detail : String → Option CommitDetail

/-- The pagination `while (true)` loop.  Mirrors the source order:
non-ok response throws; an empty page breaks; the page is appended; a
page shorter than 100 breaks; the page counter is incremented and the
`page > 50` cap breaks with a warning (the returned `Bool`). -/
def goPages (pages : Nat → PageResp) :
    Nat → Nat → List (String × Int) →
    Option (Except String (List (String × Int) × Bool))
  | 0, _, _ => none
  | fuel + 1, page, acc =>
    match pages page with
    | .errAuth => some (.error "GitHub API auth failed. Set GITHUB_TOKEN env var.")
    | .errNotFound => some (.error "Repository not found or is private.")
    | .errOther s => some (.error ("GitHub API error: " ++ toString s))
    | .ok data =>
      if data.length = 0 then some (.ok (acc, false))
      else
        let acc₂ := acc ++ data
        if data.length < 100 then some (.ok (acc₂, false))
        else if 50 < page + 1 then some (.ok (acc₂, true))
        else goPages pages fuel (page + 1) acc₂

/-- The commit list of page `i` when that page is ok, else `[]`; used
to state what the pagination loop collects. -/
def pageData (pages : Nat → PageResp) (i : Nat) : List (String × Int) :=
  match pages i with
  | .ok data => data
  | _ => []

/-- Concatenation of `n` consecutive pages starting at `page`. -/
def joinCount (pages : Nat → PageResp) : Nat → Nat → List (String × Int)
  | _, 0 => []
  | page, n + 1 => pageData pages page ++ joinCount pages (page + 1) n

/-- `Math.ceil(commits.length / 20)`: the index stride used to sample
commits when more than 20 are listed. -/
def sampleStep (n : Nat) : Nat := (n + 19) / 20

/-- `commits.filter((_, i) => i % Math.ceil(commits.length / 20) === 0)`:
the evenly spaced sample taken when more than 20 commits are listed. -/
def sampledOf (commits : List (String × Int)) : List (String × Int) :=
  (commits.enum.filter (fun p => p.1 % sampleStep commits.length = 0)).map Prod.snd

/-- The per-commit-stats phase of `computeGitHubRepoMetrics`, applied
to the commits collected by the pagination loop: fetch detail for all
commits (or for the sample when more than 20), sum line stats, collect
distinct file paths, and linearly extrapolate the two line counts (and
only those) when a sample was used. -/
def ghMetricsOf (o : GitHubOracle) (startMs endMs : Int)
    (commits : List (String × Int)) : RepoMetrics :=
  let n := commits.length
  let commitsToFetch := if 20 < n then sampledOf commits else commits
  let fetched := commitsToFetch.filterMap (fun c => o.detail c.1)
  let rawAdded : Int := (fetched.map (fun d => ((d.stats.map Prod.fst).getD 0 : Int))).sum
  let rawRemoved : Int := (fetched.map (fun d => ((d.stats.map Prod.snd).getD 0 : Int))).sum
  let allFiles := fetched.flatMap (fun d => d.files)
  let files := allFiles.dedup
  let testFiles := (allFiles.filter isTestFile).dedup
  let docFiles := (allFiles.filter isDocFile).dedup
  let scaled := commitsToFetch.length < n
  let linesAdded : Int :=
    if scaled then jsRound ((rawAdded : ℚ) * ((n : ℚ) / (commitsToFetch.length : ℚ)))
    else rawAdded
  let linesRemoved : Int :=
    if scaled then jsRound ((rawRemoved : ℚ) * ((n : ℚ) / (commitsToFetch.length : ℚ)))
    else rawRemoved
  { commits := n
    linesAdded := linesAdded
    linesRemoved := linesRemoved
    filesChanged := files.length
    testFilesChanged := testFiles.length
    docFilesChanged := docFiles.length
    avgCommitsPerDay := (n : ℚ) / (windowDays startMs endMs : ℚ)
    firstCommitTimes := getFirstCommitPerDay (commits.map Prod.snd) }

/-- `computeGitHubRepoMetrics`.  The outer `Option` is fuel exhaustion
of the embedded loop (proved unreachable); `Except` models throwing. -/
def computeGitHubRepoMetrics (o : GitHubOracle) (startMs endMs : Int) :
    Option (Except String RepoMetrics) :=
  match goPages o.pages 51 1 [] with
  | none => none
  | some (.error e) => some (.error e)
  | some (.ok (commits, _warned)) => some (.ok (ghMetricsOf o startMs endMs commits))

/-- Page oracle of the 25-commit counterexample run: one page of 25
commits, then empty pages. -/
def cexPages : Nat → PageResp := fun p =>
  if p = 1 then .ok ((List.range 25).map (fun i => ("", (i : Int)))) else .ok []

/-- Oracle of the 25-commit counterexample run: every commit detail
reports 77 additions, 10 deletions and no files. -/
def cexOracle : GitHubOracle :=
  ⟨cexPages, fun _ => some ⟨some (77, 10), []⟩⟩

/- =====================================================================
   Aggregation and the metrics command.
   ===================================================================== -/

/-- `aggregateRepoMetrics`: the loop sums the six count fields and
concatenates all `firstCommitTimes`; then `avgCommitsPerDay` is set to
the arithmetic mean over the repository count (left 0 when the map is
empty), and the concatenated times are re-deduplicated per day. -/
def aggregateRepoMetrics (repos : List RepoMetrics) : RepoMetrics :=
  { commits := (repos.map (·.commits)).sum
    linesAdded := (repos.map (·.linesAdded)).sum
    linesRemoved := (repos.map (·.linesRemoved)).sum
    filesChanged := (repos.map (·.filesChanged)).sum
    testFilesChanged := (repos.map (·.testFilesChanged)).sum
    docFilesChanged := (repos.map (·.docFilesChanged)).sum
    avgCommitsPerDay :=
      if repos.length = 0 then 0
      else (repos.map (·.avgCommitsPerDay)).sum / (repos.length : ℚ)
    firstCommitTimes :=
      getFirstCommitPerDay ((repos.map (·.firstCommitTimes)).flatten) }

/-- `repoMetrics[repo.path] = v` on a JS object: update in place when
the key exists, append otherwise. -/
def recordSet (m : List (String × RepoMetrics)) (k : String) (v : RepoMetrics) :
    List (String × RepoMetrics) :=
  match m with
  | [] => [(k, v)]
  | (k₁, v₁) :: rest =>
    if k₁ = k then (k, v) :: rest else (k₁, v₁) :: recordSet rest k v

/-- The warning printed for a failed repository. -/
def warnMsg (path msg : String) : String :=
  "Warning: Could not compute metrics for " ++ path ++ ": " ++ msg

/-- `computeGitMetrics`: sequential loop over the configured
repositories; each failing collection is caught, converted to a warning
(second component) and skipped.  `collect` abstracts
`computeRepoMetrics` (identifier dispatch plus collector) for the
block's window. -/
def computeGitMetrics (collect : Repository → Except String RepoMetrics)
    (now : Int) (block : Block) (repos : List Repository) :
    GitMetrics × List String :=
  let endDate := block.endDate.getD now
  let acc := repos.foldl
    (fun (acc : List (String × RepoMetrics) × List String) repo =>
      match collect repo with
      | .ok v => (recordSet acc.1 repo.path v, acc.2)
      | .error e => (acc.1, acc.2 ++ [warnMsg repo.path e]))
    ([], [])
  ({ block := block.id
     computedAt := now
     dateRangeStart := block.startDate
     dateRangeEnd := endDate
     repositories := acc.1
     totals := aggregateRepoMetrics (acc.1.map Prod.snd) }, acc.2)

/-- `t` occurs in `ts` and is the earliest timestamp of its UTC
calendar day there: `getFirstCommitPerDay` keeps exactly these. -/
def MinOfDay (ts : List Int) (t : Int) : Prop :=
  t ∈ ts ∧ ∀ u ∈ ts, epochDay u = epochDay t → t ≤ u

/-- Invariant of the `byDay` map while folding over the timestamp list:
keys are distinct, every entry is keyed by its own day and holds the
earliest timestamp of that day among the processed (`seen`) ones, and
every processed day has an entry. -/
def ByDayInv (seen : List Int) (m : List (Int × Int)) : Prop :=
  (m.map Prod.fst).Nodup ∧
  (∀ p ∈ m, p.1 = epochDay p.2 ∧ p.2 ∈ seen ∧
    ∀ u ∈ seen, epochDay u = p.1 → p.2 ≤ u) ∧
  (∀ u ∈ seen, ∃ p ∈ m, p.1 = epochDay u)

/-- The cache/refresh flow of the `metrics` command `run`: read the
cache unless `--refresh`; compute and write only when nothing was
read.  Returns the displayed document, the document written to the
cache (if any), and the number of per-repository collection calls
performed. -/
def runMetrics (refresh : Bool) (cached : Option GitMetrics)
    (collect : Repository → Except String RepoMetrics)
    (now : Int) (block : Block) (repos : List Repository) :
    GitMetrics × Option GitMetrics × Nat :=
  let fromCache : Option GitMetrics := if refresh then none else cached
  match fromCache with
  | some doc => (doc, none, 0)
  | none =>
    let doc := (computeGitMetrics collect now block repos).1
    (doc, some doc, repos.length)

/- =====================================================================
   Theorems.  First the machinery for the per-day map, then one theorem
   per claim (with witnesses for theorems that carry hypotheses).
   ===================================================================== -/

theorem insertDay_mem {m : List (Int × Int)} {k t : Int} :
    ∀ p ∈ insertDay m k t, (p ∈ m ∧ p.1 ≠ k) ∨ p.1 = k := by
  induction m with
  | nil =>
    intro p hp
    simp only [insertDay, List.mem_singleton] at hp
    subst hp; right; rfl
  | cons hd tl ih =>
    obtain ⟨k₁, t₁⟩ := hd
    intro p hp
    by_cases h : k₁ = k
    · simp only [insertDay, if_pos h] at hp
      rcases List.mem_cons.mp hp with h1 | h1
      · subst h1; right; exact h
      · by_cases h2 : p.1 = k
        · right; exact h2
        · left; exact ⟨List.mem_cons_of_mem _ h1, h2⟩
    · simp only [insertDay, if_neg h] at hp
      rcases List.mem_cons.mp hp with h1 | h1
      · subst h1; left; exact ⟨List.mem_cons_self _ _, h⟩
      · rcases ih p h1 with ⟨hm, hne⟩ | he
        · left; exact ⟨List.mem_cons_of_mem _ hm, hne⟩
        · right; exact he

theorem insertDay_keys_nodup {m : List (Int × Int)} {k t : Int}
    (hnd : (m.map Prod.fst).Nodup) :
    ((insertDay m k t).map Prod.fst).Nodup := by
  induction m with
  | nil => simp [insertDay]
  | cons hd tl ih =>
    obtain ⟨k₁, t₁⟩ := hd
    simp only [List.map_cons, List.nodup_cons] at hnd
    by_cases h : k₁ = k
    · simpa [insertDay, if_pos h, List.nodup_cons] using hnd
    · have htl := ih hnd.2
      simp only [insertDay, if_neg h, List.map_cons, List.nodup_cons]
      refine ⟨?_, htl⟩
      intro hmem
      rcases List.mem_map.mp hmem with ⟨q, hq, hq1⟩
      rcases insertDay_mem q hq with ⟨hqm, _⟩ | hqk
      · exact hnd.1 (hq1 ▸ List.mem_map_of_mem Prod.fst hqm)
      · exact h (hq1 ▸ hqk)

theorem insertDay_entry {m : List (Int × Int)} {k t : Int}
    (hnd : (m.map Prod.fst).Nodup) :
    ∀ p ∈ insertDay m k t, p.1 = k →
      (∃ told, (k, told) ∈ m ∧ p.2 = if t < told then t else told) ∨
      ((∀ u, (k, u) ∉ m) ∧ p.2 = t) := by
  induction m with
  | nil =>
    intro p hp _
    simp only [insertDay, List.mem_singleton] at hp
    subst hp; right; exact ⟨by simp, rfl⟩
  | cons hd tl ih =>
    obtain ⟨k₁, t₁⟩ := hd
    simp only [List.map_cons, List.nodup_cons] at hnd
    intro p hp hpk
    by_cases h : k₁ = k
    · simp only [insertDay, if_pos h] at hp
      rcases List.mem_cons.mp hp with h1 | h1
      · subst h1
        exact Or.inl ⟨t₁, by simp [h], rfl⟩
      · exfalso
        have hmem : p.1 ∈ tl.map Prod.fst := List.mem_map_of_mem Prod.fst h1
        rw [hpk, ← h] at hmem
        exact hnd.1 hmem
    · simp only [insertDay, if_neg h] at hp
      rcases List.mem_cons.mp hp with h1 | h1
      · exfalso; subst h1; exact h hpk
      · rcases ih hnd.2 p h1 hpk with ⟨told, hm, he⟩ | ⟨hno, he⟩
        · exact Or.inl ⟨told, List.mem_cons_of_mem _ hm, he⟩
        · refine Or.inr ⟨?_, he⟩
          intro u hu
          rcases List.mem_cons.mp hu with h2 | h2
          · exact h (congrArg Prod.fst h2.symm)
          · exact hno u h2

theorem insertDay_exists (m : List (Int × Int)) (k t : Int) :
    ∃ p ∈ insertDay m k t, p.1 = k := by
  induction m with
  | nil => exact ⟨(k, t), by simp [insertDay]⟩
  | cons hd tl ih =>
    obtain ⟨k₁, t₁⟩ := hd
    by_cases h : k₁ = k
    · exact ⟨(k₁, if t < t₁ then t else t₁), by simp [insertDay, if_pos h], h⟩
    · obtain ⟨p, hp, hpk⟩ := ih
      exact ⟨p, by simp only [insertDay, if_neg h]; exact List.mem_cons_of_mem _ hp, hpk⟩

theorem insertDay_persist {m : List (Int × Int)} (k t : Int) :
    ∀ p ∈ m, ∃ q ∈ insertDay m k t, q.1 = p.1 := by
  induction m with
  | nil => intro p hp; simp at hp
  | cons hd tl ih =>
    obtain ⟨k₁, t₁⟩ := hd
    intro p hp
    by_cases h : k₁ = k
    · rcases List.mem_cons.mp hp with h1 | h1
      · exact ⟨(k₁, if t < t₁ then t else t₁), by simp [insertDay, if_pos h],
          by rw [h1]⟩
      · exact ⟨p, by simp only [insertDay, if_pos h]; exact List.mem_cons_of_mem _ h1, rfl⟩
    · rcases List.mem_cons.mp hp with h1 | h1
      · exact ⟨(k₁, t₁), by simp [insertDay, if_neg h], by rw [h1]⟩
      · obtain ⟨q, hq, hqk⟩ := ih p h1
        exact ⟨q, by simp only [insertDay, if_neg h]; exact List.mem_cons_of_mem _ hq, hqk⟩

theorem byDayInv_step {seen : List Int} {m : List (Int × Int)} (t : Int)
    (h : ByDayInv seen m) :
    ByDayInv (seen ++ [t]) (insertDay m (epochDay t) t) := by
  obtain ⟨hnd, hval, hcov⟩ := h
  refine ⟨insertDay_keys_nodup hnd, ?_, ?_⟩
  · intro p hp
    rcases insertDay_mem p hp with ⟨hpm, hpne⟩ | hpk
    · obtain ⟨h1, h2, h3⟩ := hval p hpm
      refine ⟨h1, List.mem_append_left _ h2, ?_⟩
      intro u hu hud
      rcases List.mem_append.mp hu with hu1 | hu1
      · exact h3 u hu1 hud
      · rw [List.mem_singleton] at hu1
        subst hu1
        exact absurd hud.symm hpne
    · rcases insertDay_entry hnd p hp hpk with ⟨told, htm, hte⟩ | ⟨hno, hte⟩
      · obtain ⟨h1, h2, h3⟩ := hval (epochDay t, told) htm
        simp only at h1 h2 h3
        have hday : p.1 = epochDay p.2 := by
          rw [hte]; split
          · exact hpk
          · rw [hpk, h1]
        have hmem : p.2 ∈ seen ++ [t] := by
          rw [hte]; split
          · exact List.mem_append_right _ (List.mem_singleton.mpr rfl)
          · exact List.mem_append_left _ h2
        refine ⟨hday, hmem, ?_⟩
        intro u hu hud
        have hple : p.2 ≤ told := by
          rw [hte]; split
          · omega
          · exact le_refl _
        have hplet : p.2 ≤ t := by
          rw [hte]; split
          · exact le_refl _
          · omega
        rcases List.mem_append.mp hu with hu1 | hu1
        · exact le_trans hple (h3 u hu1 (by rw [hud, hpk]))
        · rw [List.mem_singleton] at hu1
          subst hu1
          exact hplet
      · have hday : p.1 = epochDay p.2 := by rw [hte, hpk]
        refine ⟨hday, by rw [hte]; exact List.mem_append_right _ (List.mem_singleton.mpr rfl), ?_⟩
        intro u hu hud
        rcases List.mem_append.mp hu with hu1 | hu1
        · exfalso
          obtain ⟨q, hq, hqk⟩ := hcov u hu1
          have : (epochDay t, q.2) ∈ m := by
            have : q = (q.1, q.2) := rfl
            rw [hqk, hud, hpk] at this
            exact this ▸ hq
          exact hno q.2 this
        · rw [List.mem_singleton] at hu1
          subst hu1
          rw [hte]
  · intro u hu
    rcases List.mem_append.mp hu with hu1 | hu1
    · obtain ⟨p, hp, hpk⟩ := hcov u hu1
      obtain ⟨q, hq, hqk⟩ := insertDay_persist (epochDay t) t p hp
      exact ⟨q, hq, by rw [hqk, hpk]⟩
    · rw [List.mem_singleton] at hu1
      subst hu1
      obtain ⟨p, hp, hpk⟩ := insertDay_exists m (epochDay u) u
      exact ⟨p, hp, hpk⟩

theorem byDayInv_fold :
    ∀ (ts : List Int) (seen : List Int) (m : List (Int × Int)),
      ByDayInv seen m →
      ByDayInv (seen ++ ts)
        (ts.foldl (fun acc u => insertDay acc (epochDay u) u) m) := by
  intro ts
  induction ts with
  | nil => intro seen m h; simpa using h
  | cons t ts ih =>
    intro seen m h
    have h2 := ih (seen ++ [t]) _ (byDayInv_step t h)
    simpa [List.append_assoc] using h2

theorem buildByDay_inv (ts : List Int) : ByDayInv ts (buildByDay ts) := by
  have h := byDayInv_fold ts [] [] ⟨by simp, by simp, by simp⟩
  simpa [buildByDay] using h

theorem mem_buildByDay_values {ts : List Int} {v : Int} :
    v ∈ (buildByDay ts).map Prod.snd ↔ MinOfDay ts v := by
  obtain ⟨hnd, hval, hcov⟩ := buildByDay_inv ts
  constructor
  · intro hv
    rcases List.mem_map.mp hv with ⟨p, hp, hpv⟩
    obtain ⟨h1, h2, h3⟩ := hval p hp
    subst hpv
    exact ⟨h2, fun u hu hud => h3 u hu (by rw [hud, h1])⟩
  · rintro ⟨hvts, hvmin⟩
    obtain ⟨p, hp, hpk⟩ := hcov v hvts
    obtain ⟨h1, h2, h3⟩ := hval p hp
    have hle1 : v ≤ p.2 := hvmin p.2 h2 (by rw [← h1, hpk])
    have hle2 : p.2 ≤ v := h3 v hvts hpk.symm
    have : v = p.2 := le_antisymm hle1 hle2
    exact this ▸ List.mem_map_of_mem Prod.snd hp

theorem buildByDay_fst_eq (ts : List Int) :
    (buildByDay ts).map Prod.fst = ((buildByDay ts).map Prod.snd).map epochDay := by
  obtain ⟨_, hval, _⟩ := buildByDay_inv ts
  rw [List.map_map]
  exact List.map_congr_left fun p hp => (hval p hp).1

theorem buildByDay_values_nodup (ts : List Int) :
    ((buildByDay ts).map Prod.snd).Nodup := by
  apply List.Nodup.of_map epochDay
  rw [← buildByDay_fst_eq]
  exact (buildByDay_inv ts).1

theorem getFirstCommitPerDay_perm (ts : List Int) :
    (getFirstCommitPerDay ts).Perm ((buildByDay ts).map Prod.snd) :=
  List.perm_insertionSort _ _

theorem mem_getFirstCommitPerDay {ts : List Int} {v : Int} :
    v ∈ getFirstCommitPerDay ts ↔ MinOfDay ts v :=
  ((getFirstCommitPerDay_perm ts).mem_iff).trans mem_buildByDay_values

theorem getFirstCommitPerDay_sorted (ts : List Int) :
    (getFirstCommitPerDay ts).Sorted (· < ·) := by
  have hle : (getFirstCommitPerDay ts).Sorted (· ≤ ·) :=
    List.sorted_insertionSort _ _
  have hnd : (getFirstCommitPerDay ts).Nodup :=
    (getFirstCommitPerDay_perm ts).nodup_iff.mpr (buildByDay_values_nodup ts)
  exact hle.lt_of_le hnd

theorem getFirstCommitPerDay_day_nodup (ts : List Int) :
    ((getFirstCommitPerDay ts).map epochDay).Nodup := by
  have hperm := (getFirstCommitPerDay_perm ts).map epochDay
  apply hperm.nodup_iff.mpr
  rw [← buildByDay_fst_eq]
  exact (buildByDay_inv ts).1

theorem computeLocal_ok_firstTimes {o : LocalGitOracle} {s e : Int} {m : RepoMetrics}
    (hm : computeLocalRepoMetrics o s e = .ok m) :
    ∃ ts, m.firstCommitTimes = getFirstCommitPerDay ts := by
  by_cases h : o.checkSuccess = false
  · simp [computeLocalRepoMetrics, h] at hm
  · simp only [computeLocalRepoMetrics, if_neg h, Except.ok.injEq] at hm
    exact ⟨_, by rw [← hm]⟩

theorem computeGitHub_ok_firstTimes {o : GitHubOracle} {s e : Int} {m : RepoMetrics}
    (hm : computeGitHubRepoMetrics o s e = some (.ok m)) :
    ∃ ts, m.firstCommitTimes = getFirstCommitPerDay ts := by
  rcases hgo : goPages o.pages 51 1 [] with _ | er
  · unfold computeGitHubRepoMetrics at hm
    rw [hgo] at hm
    simp at hm
  · rcases er with e₂ | ⟨cs, w⟩
    · unfold computeGitHubRepoMetrics at hm
      rw [hgo] at hm
      simp at hm
    · unfold computeGitHubRepoMetrics at hm
      rw [hgo] at hm
      simp only [Option.some.injEq, Except.ok.injEq] at hm
      exact ⟨_, by rw [← hm]; rfl⟩

/-- Claim C1: for every finite map of `RepoMetrics`, `aggregateRepoMetrics`
returns the elementwise sums of the six count fields (invariant under
reordering of the map), the arithmetic mean — not the sum — of the
per-repository `avgCommitsPerDay` values, and maps the empty input to
the all-zero record with an empty `firstCommitTimes` list. -/
theorem C1_aggregate_totals (repos repos₂ : List RepoMetrics)
    (hperm : repos.Perm repos₂) :
    (aggregateRepoMetrics repos).commits = (repos.map (·.commits)).sum ∧
    (aggregateRepoMetrics repos).linesAdded = (repos.map (·.linesAdded)).sum ∧
    (aggregateRepoMetrics repos).linesRemoved = (repos.map (·.linesRemoved)).sum ∧
    (aggregateRepoMetrics repos).filesChanged = (repos.map (·.filesChanged)).sum ∧
    (aggregateRepoMetrics repos).testFilesChanged = (repos.map (·.testFilesChanged)).sum ∧
    (aggregateRepoMetrics repos).docFilesChanged = (repos.map (·.docFilesChanged)).sum ∧
    (repos ≠ [] →
      (aggregateRepoMetrics repos).avgCommitsPerDay =
        (repos.map (·.avgCommitsPerDay)).sum / (repos.length : ℚ)) ∧
    (aggregateRepoMetrics repos).commits = (aggregateRepoMetrics repos₂).commits ∧
    (aggregateRepoMetrics repos).linesAdded = (aggregateRepoMetrics repos₂).linesAdded ∧
    (aggregateRepoMetrics repos).linesRemoved = (aggregateRepoMetrics repos₂).linesRemoved ∧
    (aggregateRepoMetrics repos).filesChanged = (aggregateRepoMetrics repos₂).filesChanged ∧
    (aggregateRepoMetrics repos).testFilesChanged =
      (aggregateRepoMetrics repos₂).testFilesChanged ∧
    (aggregateRepoMetrics repos).docFilesChanged =
      (aggregateRepoMetrics repos₂).docFilesChanged ∧
    (aggregateRepoMetrics repos).avgCommitsPerDay =
      (aggregateRepoMetrics repos₂).avgCommitsPerDay ∧
    aggregateRepoMetrics [] =
      { commits := 0, linesAdded := 0, linesRemoved := 0, filesChanged := 0,
        testFilesChanged := 0, docFilesChanged := 0, avgCommitsPerDay := 0,
        firstCommitTimes := [] } := by
  have hlen := hperm.length_eq
  refine ⟨rfl, rfl, rfl, rfl, rfl, rfl, ?_, ?_, ?_, ?_, ?_, ?_, ?_, ?_, rfl⟩
  · intro hne
    simp only [aggregateRepoMetrics]
    rw [if_neg (by simpa [List.length_eq_zero] using hne)]
  · exact (hperm.map (·.commits)).sum_eq
  · exact (hperm.map (·.linesAdded)).sum_eq
  · exact (hperm.map (·.linesRemoved)).sum_eq
  · exact (hperm.map (·.filesChanged)).sum_eq
  · exact (hperm.map (·.testFilesChanged)).sum_eq
  · exact (hperm.map (·.docFilesChanged)).sum_eq
  · simp only [aggregateRepoMetrics, hlen, (hperm.map (·.avgCommitsPerDay)).sum_eq]

theorem C1_aggregate_totals_witness :
    (aggregateRepoMetrics
      [⟨2, 10, 4, 3, 1, 1, 2, [0]⟩, ⟨3, 20, 6, 5, 2, 0, 4, [86400000]⟩]).commits = 5 ∧
    (aggregateRepoMetrics
      [⟨2, 10, 4, 3, 1, 1, 2, [0]⟩, ⟨3, 20, 6, 5, 2, 0, 4, [86400000]⟩]).avgCommitsPerDay
      = 3 := by
  have h := C1_aggregate_totals
    [⟨2, 10, 4, 3, 1, 1, 2, [0]⟩, ⟨3, 20, 6, 5, 2, 0, 4, [86400000]⟩]
    [⟨3, 20, 6, 5, 2, 0, 4, [86400000]⟩, ⟨2, 10, 4, 3, 1, 1, 2, [0]⟩]
    (List.Perm.swap _ _ _)
  constructor
  · rw [h.1]; rfl
  · rw [h.2.2.2.2.2.2.1 (by simp)]
    norm_num

/-- Claim C2: `getFirstCommitPerDay` (hence the `firstCommitTimes` of
every collected or aggregated result) keeps at most one timestamp per
UTC calendar day — exactly the earliest timestamp of each represented
day — sorted strictly ascending by instant; and when two repositories
each contribute a (per-day-unique) timestamp on the same calendar day,
aggregation keeps exactly one timestamp for that day: the earlier of
the two. -/
theorem C2_first_commit_dedup :
    (∀ ts : List Int,
      (getFirstCommitPerDay ts).Sorted (· < ·) ∧
      ((getFirstCommitPerDay ts).map epochDay).Nodup ∧
      (∀ v, v ∈ getFirstCommitPerDay ts ↔ MinOfDay ts v)) ∧
    (∀ (o : LocalGitOracle) (s e : Int) (m : RepoMetrics),
      computeLocalRepoMetrics o s e = .ok m →
      m.firstCommitTimes.Sorted (· < ·) ∧ (m.firstCommitTimes.map epochDay).Nodup) ∧
    (∀ (o : GitHubOracle) (s e : Int) (m : RepoMetrics),
      computeGitHubRepoMetrics o s e = some (.ok m) →
      m.firstCommitTimes.Sorted (· < ·) ∧ (m.firstCommitTimes.map epochDay).Nodup) ∧
    (∀ (m₁ m₂ : RepoMetrics) (t₁ t₂ : Int),
      t₁ ∈ m₁.firstCommitTimes → t₂ ∈ m₂.firstCommitTimes →
      epochDay t₁ = epochDay t₂ →
      (∀ u ∈ m₁.firstCommitTimes, epochDay u = epochDay t₁ → t₁ ≤ u) →
      (∀ u ∈ m₂.firstCommitTimes, epochDay u = epochDay t₂ → t₂ ≤ u) →
      min t₁ t₂ ∈ (aggregateRepoMetrics [m₁, m₂]).firstCommitTimes ∧
      ∀ u ∈ (aggregateRepoMetrics [m₁, m₂]).firstCommitTimes,
        epochDay u = epochDay t₁ → u = min t₁ t₂) := by
  refine ⟨?_, ?_, ?_, ?_⟩
  · intro ts
    exact ⟨getFirstCommitPerDay_sorted ts, getFirstCommitPerDay_day_nodup ts,
      fun v => mem_getFirstCommitPerDay⟩
  · intro o s e m hm
    obtain ⟨ts, hts⟩ := computeLocal_ok_firstTimes hm
    rw [hts]
    exact ⟨getFirstCommitPerDay_sorted ts, getFirstCommitPerDay_day_nodup ts⟩
  · intro o s e m hm
    obtain ⟨ts, hts⟩ := computeGitHub_ok_firstTimes hm
    rw [hts]
    exact ⟨getFirstCommitPerDay_sorted ts, getFirstCommitPerDay_day_nodup ts⟩
  · intro m₁ m₂ t₁ t₂ h₁ h₂ hday hmin₁ hmin₂
    have hagg : (aggregateRepoMetrics [m₁, m₂]).firstCommitTimes
        = getFirstCommitPerDay (m₁.firstCommitTimes ++ m₂.firstCommitTimes) := by
      simp [aggregateRepoMetrics]
    have hdmin : epochDay (min t₁ t₂) = epochDay t₁ := by
      rcases min_choice t₁ t₂ with h | h
      · rw [h]
      · rw [h, hday]
    have hminmem : min t₁ t₂ ∈ m₁.firstCommitTimes ++ m₂.firstCommitTimes := by
      rcases min_choice t₁ t₂ with h | h
      · rw [h]; exact List.mem_append_left _ h₁
      · rw [h]; exact List.mem_append_right _ h₂
    have hminmin : ∀ u ∈ m₁.firstCommitTimes ++ m₂.firstCommitTimes,
        epochDay u = epochDay t₁ → min t₁ t₂ ≤ u := by
      intro u hu hud
      rcases List.mem_append.mp hu with hu1 | hu1
      · exact le_trans (min_le_left _ _) (hmin₁ u hu1 hud)
      · exact le_trans (min_le_right _ _) (hmin₂ u hu1 (by rw [hud, hday]))
    constructor
    · rw [hagg, mem_getFirstCommitPerDay]
      exact ⟨hminmem, fun u hu hud => hminmin u hu (by rw [← hdmin]; exact hud)⟩
    · intro u hu hud
      rw [hagg, mem_getFirstCommitPerDay] at hu
      obtain ⟨humem, humin⟩ := hu
      have hle : u ≤ min t₁ t₂ := humin _ hminmem (by rw [hdmin, hud])
      have hge : min t₁ t₂ ≤ u := hminmin u humem hud
      exact le_antisymm hle hge

theorem C2_first_commit_dedup_witness :
    (5 : Int) ∈ (aggregateRepoMetrics
      [⟨1, 0, 0, 0, 0, 0, 1, [10]⟩, ⟨1, 0, 0, 0, 0, 0, 1, [5]⟩]).firstCommitTimes := by
  have h := C2_first_commit_dedup.2.2.2
    ⟨1, 0, 0, 0, 0, 0, 1, [10]⟩ ⟨1, 0, 0, 0, 0, 0, 1, [5]⟩ 10 5
    (by decide) (by decide) (by decide) (by decide) (by decide)
  have hm : min (10 : Int) 5 = 5 := by decide
  rw [hm] at h
  exact h.1

/- Machinery for the URL-pattern matcher (claim C3). -/

theorem dropLit_self_append (lit rest : List Char) :
    dropLit lit (lit ++ rest) = some rest := by
  induction lit with
  | nil => simp [dropLit]
  | cons c cs ih => simp [dropLit, ih]

theorem dropLit_eq_some {lit cs rest : List Char} :
    dropLit lit cs = some rest → cs = lit ++ rest := by
  induction lit generalizing cs with
  | nil =>
    intro h
    simp only [dropLit, Option.some.injEq] at h
    simp [h]
  | cons l ls ih =>
    intro h
    cases cs with
    | nil => simp [dropLit] at h
    | cons c cs₁ =>
      simp only [dropLit] at h
      by_cases hc : c = l
      · rw [if_pos hc] at h
        rw [hc, List.cons_append]
        exact congrArg _ (ih h)
      · rw [if_neg hc] at h; cases h

theorem takeWhile_dropWhile_eq {p : Char → Bool} {l : List Char} (x : Char)
    (rest : List Char) (hl : ∀ a ∈ l, p a = true) (hx : p x = false) :
    (l ++ x :: rest).takeWhile p = l ∧ (l ++ x :: rest).dropWhile p = x :: rest := by
  induction l with
  | nil => simp [List.takeWhile_cons, List.dropWhile_cons, hx]
  | cons a l ih =>
    have ha : p a = true := hl a (List.mem_cons_self _ _)
    have ihl := ih fun b hb => hl b (List.mem_cons_of_mem _ hb)
    constructor
    · rw [List.cons_append, List.takeWhile_cons, if_pos ha, ihl.1]
    · rw [List.cons_append, List.dropWhile_cons, if_pos ha, ihl.2]

theorem dropWhile_head_false {p : Char → Bool} {l : List Char} {c : Char}
    {cs : List Char} (h : l.dropWhile p = c :: cs) : p c = false := by
  induction l with
  | nil => simp [List.dropWhile] at h
  | cons a l ih =>
    rw [List.dropWhile_cons] at h
    by_cases ha : p a = true
    · rw [if_pos ha] at h; exact ih h
    · rw [if_neg ha] at h
      injection h with h1 _
      subst h1
      exact Bool.not_eq_true _ |>.mp ha

theorem matchOwnerRepo_sound {cs o r : List Char}
    (h : matchOwnerRepo cs = some (o, r)) : OwnerRepoTail cs o r := by
  have hcs := List.takeWhile_append_dropWhile (p := fun c => decide (c ≠ '/')) (l := cs)
  unfold matchOwnerRepo at h
  rcases how : cs.takeWhile (· ≠ '/') with _ | ⟨a, ow⟩
  · rw [how] at h; simp at h
  · rcases hdw : cs.dropWhile (· ≠ '/') with _ | ⟨d, cs₂⟩
    · rw [how, hdw] at h; simp at h
    · rw [how, hdw] at h
      simp only at h
      rw [how, hdw] at hcs
      have hd : d = '/' := by
        have := dropWhile_head_false hdw
        simpa using this
      have hmem : '/' ∉ a :: ow := by
        intro hm
        have := List.mem_takeWhile_imp (how ▸ hm)
        simp at this
      by_cases h1 : cs₂.any (· = '/') = true
      · rw [if_pos h1] at h; cases h
      · rw [if_neg h1] at h
        have hnos : '/' ∉ cs₂ := by
          intro hm
          exact h1 (List.any_eq_true.mpr ⟨'/', hm, by simp⟩)
        by_cases h2 : 5 ≤ cs₂.length ∧ cs₂.drop (cs₂.length - 4) = dotGitChars
        · rw [if_pos h2] at h
          injection h with h3
          injection h3 with h3 h4
          subst h3; subst h4
          refine ⟨List.cons_ne_nil _ _, hmem, ?_, ?_, Or.inl ?_⟩
          · have : (cs₂.take (cs₂.length - 4)).length = cs₂.length - 4 := by
              rw [List.length_take]; omega
            intro hnil
            rw [hnil] at this
            simp at this
            omega
          · intro hm
            exact hnos (List.take_subset _ _ hm)
          · rw [← hcs, hd]
            congr 1
            congr 1
            rw [← h2.2]
            exact (List.take_append_drop _ _).symm
        · rw [if_neg h2] at h
          by_cases h3 : cs₂.isEmpty = true
          · rw [if_pos h3] at h; cases h
          · rw [if_neg h3] at h
            injection h with h4
            injection h4 with h4 h5
            subst h4; subst h5
            refine ⟨List.cons_ne_nil _ _, hmem, ?_, hnos, Or.inr ?_⟩
            · intro hnil
              rw [hnil] at h3
              exact h3 rfl
            · rw [← hcs, hd]

theorem matchOwnerRepo_complete {cs o r : List Char}
    (h : OwnerRepoTail cs o r) : (matchOwnerRepo cs).isSome := by
  obtain ⟨ho, hos, hr, hrs, hcs | hcs⟩ := h
  · subst hcs
    have htd := takeWhile_dropWhile_eq (p := fun c => decide (c ≠ '/')) '/'
      (r ++ dotGitChars)
      (fun a ha => by
        simp only [decide_eq_true_eq]
        intro he
        exact hos (he ▸ ha))
      (by simp)
    unfold matchOwnerRepo
    rw [htd.1, htd.2]
    rcases o with _ | ⟨a, ow⟩
    · exact absurd rfl ho
    · simp only
      have hany : (r ++ dotGitChars).any (· = '/') = false := by
        rw [Bool.eq_false_iff]
        intro hm
        rcases List.any_eq_true.mp hm with ⟨x, hx, hx2⟩
        have hx3 : x = '/' := by simpa using hx2
        rcases List.mem_append.mp hx with hx4 | hx4
        · exact hrs (hx3 ▸ hx4)
        · rw [hx3] at hx4
          simp [dotGitChars] at hx4
      rw [hany]
      have hlen : (r ++ dotGitChars).length = r.length + 4 := by
        simp [dotGitChars]
      have hrlen : 1 ≤ r.length := by
        rcases r with _ | _
        · exact absurd rfl hr
        · simp
      have hcond : 5 ≤ (r ++ dotGitChars).length ∧
          (r ++ dotGitChars).drop ((r ++ dotGitChars).length - 4) = dotGitChars := by
        constructor
        · omega
        · have : (r ++ dotGitChars).length - 4 = r.length := by omega
          rw [this]
          exact List.drop_left _ _
      rw [if_neg (by simp), if_pos hcond]
      simp
  · subst hcs
    have htd := takeWhile_dropWhile_eq (p := fun c => decide (c ≠ '/')) '/'
      r
      (fun a ha => by
        simp only [decide_eq_true_eq]
        intro he
        exact hos (he ▸ ha))
      (by simp)
    unfold matchOwnerRepo
    rw [htd.1, htd.2]
    rcases o with _ | ⟨a, ow⟩
    · exact absurd rfl ho
    · simp only
      have hany : r.any (· = '/') = false := by
        rw [Bool.eq_false_iff]
        intro hm
        rcases List.any_eq_true.mp hm with ⟨x, hx, hx2⟩
        exact hrs ((by simpa using hx2 : x = '/') ▸ hx)
      rw [hany]
      rw [if_neg (by simp)]
      by_cases hcond : 5 ≤ r.length ∧ r.drop (r.length - 4) = dotGitChars
      · rw [if_pos hcond]; simp
      · rw [if_neg hcond]
        have : r.isEmpty = false := by
          rcases r with _ | _
          · exact absurd rfl hr
          · rfl
        rw [this]
        simp

theorem tryFirst_eq_some {α : Type} {a b : Option α} {x : α} :
    tryFirst a b = some x ↔ a = some x ∨ (a = none ∧ b = some x) := by
  cases a <;> simp [tryFirst]

theorem tryFirst_isSome_left {α : Type} {a b : Option α} (ha : a.isSome) :
    (tryFirst a b).isSome := by
  cases a
  · simp at ha
  · simp [tryFirst]

theorem tryFirst_isSome_right {α : Type} {a b : Option α} (hb : b.isSome) :
    (tryFirst a b).isSome := by
  cases a <;> simp [tryFirst, hb]

theorem matchHost_sound {cs o r : List Char} (h : matchHost cs = some (o, r)) :
    ∃ T, cs = ghHostChars ++ T ∧ OwnerRepoTail T o r := by
  unfold matchHost at h
  rcases Option.bind_eq_some.mp h with ⟨rest, hdl, hmor⟩
  exact ⟨rest, dropLit_eq_some hdl, matchOwnerRepo_sound hmor⟩

theorem matchHost_complete {T o r : List Char} (h : OwnerRepoTail T o r) :
    (matchHost (ghHostChars ++ T)).isSome := by
  unfold matchHost
  rw [dropLit_self_append]
  simpa using matchOwnerRepo_complete h

theorem matchHereWWW_sound {cs o r : List Char}
    (h : matchHereWWW cs = some (o, r)) :
    ∃ www T, (www = wwwChars ∨ www = []) ∧ cs = www ++ ghHostChars ++ T ∧
      OwnerRepoTail T o r := by
  unfold matchHereWWW at h
  rcases tryFirst_eq_some.mp h with hh | ⟨_, hh⟩
  · rcases Option.bind_eq_some.mp hh with ⟨rest, hdl, hmh⟩
    obtain ⟨T, hT, hor⟩ := matchHost_sound hmh
    exact ⟨wwwChars, T, Or.inl rfl, by rw [dropLit_eq_some hdl, hT, List.append_assoc], hor⟩
  · obtain ⟨T, hT, hor⟩ := matchHost_sound hh
    exact ⟨[], T, Or.inr rfl, by rw [hT, List.nil_append], hor⟩

theorem matchHereWWW_complete {www T o r : List Char}
    (hw : www = wwwChars ∨ www = []) (h : OwnerRepoTail T o r) :
    (matchHereWWW (www ++ ghHostChars ++ T)).isSome := by
  unfold matchHereWWW
  rcases hw with hw | hw
  · subst hw
    apply tryFirst_isSome_left
    rw [List.append_assoc, dropLit_self_append]
    simpa using matchHost_complete h
  · subst hw
    rw [List.nil_append]
    exact tryFirst_isSome_right (matchHost_complete h)

theorem matchGithubHere_sound {cs o r : List Char}
    (h : matchGithubHere cs = some (o, r)) : UrlTail cs o r := by
  unfold matchGithubHere at h
  rcases tryFirst_eq_some.mp h with hh | ⟨_, hh⟩
  · rcases Option.bind_eq_some.mp hh with ⟨rest, hdl, hw⟩
    obtain ⟨www, T, hwww, hrest, hor⟩ := matchHereWWW_sound hw
    exact ⟨httpsChars, www, T, Or.inl rfl, hwww,
      by rw [dropLit_eq_some hdl, hrest]; simp [List.append_assoc], hor⟩
  · rcases tryFirst_eq_some.mp hh with hh₂ | ⟨_, hh₂⟩
    · rcases Option.bind_eq_some.mp hh₂ with ⟨rest, hdl, hw⟩
      obtain ⟨www, T, hwww, hrest, hor⟩ := matchHereWWW_sound hw
      exact ⟨httpChars, www, T, Or.inr (Or.inl rfl), hwww,
        by rw [dropLit_eq_some hdl, hrest]; simp [List.append_assoc], hor⟩
    · obtain ⟨www, T, hwww, hrest, hor⟩ := matchHereWWW_sound hh₂
      exact ⟨[], www, T, Or.inr (Or.inr rfl), hwww,
        by rw [hrest, List.nil_append], hor⟩

theorem matchGithubHere_complete {sch www T o r : List Char}
    (hs : sch = httpsChars ∨ sch = httpChars ∨ sch = [])
    (hw : www = wwwChars ∨ www = []) (h : OwnerRepoTail T o r) :
    (matchGithubHere (sch ++ www ++ ghHostChars ++ T)).isSome := by
  unfold matchGithubHere
  rcases hs with hs | hs | hs
  · subst hs
    apply tryFirst_isSome_left
    rw [List.append_assoc, List.append_assoc, dropLit_self_append]
    simpa [List.append_assoc] using matchHereWWW_complete hw h
  · subst hs
    apply tryFirst_isSome_right
    apply tryFirst_isSome_left
    rw [List.append_assoc, List.append_assoc, dropLit_self_append]
    simpa [List.append_assoc] using matchHereWWW_complete hw h
  · subst hs
    rw [List.nil_append]
    exact tryFirst_isSome_right (tryFirst_isSome_right (matchHereWWW_complete hw h))

theorem findGithubMatch_sound (cs : List Char) :
    ∀ o r, findGithubMatch cs = some (o, r) →
      ∃ pre suf, cs = pre ++ suf ∧ UrlTail suf o r := by
  induction cs with
  | nil => intro o r h; simp [findGithubMatch] at h
  | cons c cs ih =>
    intro o r h
    unfold findGithubMatch at h
    rcases tryFirst_eq_some.mp h with hh | ⟨_, hh⟩
    · exact ⟨[], c :: cs, rfl, matchGithubHere_sound hh⟩
    · obtain ⟨pre, suf, hcs, hurl⟩ := ih o r hh
      exact ⟨c :: pre, suf, by rw [List.cons_append, ← hcs], hurl⟩

theorem findGithubMatch_complete (pre : List Char) :
    ∀ (suf o r : List Char), UrlTail suf o r →
      (findGithubMatch (pre ++ suf)).isSome := by
  induction pre with
  | nil =>
    intro suf o r h
    obtain ⟨sch, www, T, hs, hw, hsuf, hor⟩ := h
    have hm : (matchGithubHere suf).isSome := by
      rw [hsuf]; exact matchGithubHere_complete hs hw hor
    have hne : suf ≠ [] := by
      intro hnil
      rw [hnil] at hm
      have : matchGithubHere [] = none := by decide
      rw [this] at hm
      simp at hm
    rcases hsufe : suf with _ | ⟨c, rest⟩
    · exact absurd hsufe hne
    · rw [List.nil_append]
      rw [hsufe] at hm
      unfold findGithubMatch
      exact tryFirst_isSome_left hm
  | cons p pre ih =>
    intro suf o r h
    rw [List.cons_append]
    unfold findGithubMatch
    exact tryFirst_isSome_right (ih suf o r h)

theorem matchShortForm_sound {cs o r : List Char}
    (h : matchShortForm cs = some (o, r)) : ShortForm cs o r := by
  have hcs := List.takeWhile_append_dropWhile (p := fun c => decide (c ≠ '/')) (l := cs)
  unfold matchShortForm at h
  rcases how : cs.takeWhile (· ≠ '/') with _ | ⟨a, ow⟩
  · rw [how] at h; simp at h
  · rcases hdw : cs.dropWhile (· ≠ '/') with _ | ⟨d, cs₂⟩
    · rw [how, hdw] at h; simp at h
    · rw [how, hdw] at h
      simp only at h
      rw [how, hdw] at hcs
      have hd : d = '/' := by
        have := dropWhile_head_false hdw
        simpa using this
      have hmem : '/' ∉ a :: ow := by
        intro hm
        have := List.mem_takeWhile_imp (how ▸ hm)
        simp at this
      by_cases h1 : cs₂.any (· = '/') = true
      · rw [if_pos h1] at h; cases h
      · rw [if_neg h1] at h
        have hnos : '/' ∉ cs₂ := by
          intro hm
          exact h1 (List.any_eq_true.mpr ⟨'/', hm, by simp⟩)
        by_cases h3 : cs₂.isEmpty = true
        · rw [if_pos h3] at h; cases h
        · rw [if_neg h3] at h
          injection h with h4
          injection h4 with h4 h5
          subst h4; subst h5
          refine ⟨List.cons_ne_nil _ _, hmem, ?_, hnos, by rw [← hcs, hd]⟩
          intro hnil
          rw [hnil] at h3
          exact h3 rfl

theorem matchShortForm_complete {cs o r : List Char} (h : ShortForm cs o r) :
    matchShortForm cs = some (o, r) := by
  obtain ⟨ho, hos, hr, hrs, hcs⟩ := h
  subst hcs
  have htd := takeWhile_dropWhile_eq (p := fun c => decide (c ≠ '/')) '/' r
    (fun a ha => by
      simp only [decide_eq_true_eq]
      intro he
      exact hos (he ▸ ha))
    (by simp)
  unfold matchShortForm
  rw [htd.1, htd.2]
  rcases o with _ | ⟨a, ow⟩
  · exact absurd rfl ho
  · simp only
    have hany : r.any (· = '/') = false := by
      rw [Bool.eq_false_iff]
      intro hm
      rcases List.any_eq_true.mp hm with ⟨x, hx, hx2⟩
      exact hrs ((by simpa using hx2 : x = '/') ▸ hx)
    have hemp : r.isEmpty = false := by
      rcases r with _ | _
      · exact absurd rfl hr
      · rfl
    rw [hany, if_neg (by simp), hemp, if_neg (by simp)]

/-- Claim C3, counterexample: the claim says any string whose host is
not `github.com` resolves to `Local`, but the source's URL pattern is
not anchored at the start of the string, so `"evilgithub.com/o/r"`
resolves to `Remote{o, r}` while the claim's classifier (`resolveClaim`,
the anchored reading) yields `Local`. -/
theorem C3_parse_counterexample :
    parseRepoIdentifier []
        ['e', 'v', 'i', 'l', 'g', 'i', 't', 'h', 'u', 'b', '.', 'c', 'o', 'm',
         '/', 'o', '/', 'r']
      = RepoIdentifier.github ['o'] ['r'] ∧
    resolveClaim []
        ['e', 'v', 'i', 'l', 'g', 'i', 't', 'h', 'u', 'b', '.', 'c', 'o', 'm',
         '/', 'o', '/', 'r']
      = RepoIdentifier.localPath
        ['e', 'v', 'i', 'l', 'g', 'i', 't', 'h', 'u', 'b', '.', 'c', 'o', 'm',
         '/', 'o', '/', 'r'] := by
  decide

/-- Claim C3 (amended): `parseRepoIdentifier` implements the ordered
classification with the URL rule anchored only at the END of the
string: leading `/`, `~`, `.` → Local (`~` expanded to the home
directory); otherwise, if any suffix of the string matches
scheme?-`www.`?-`github.com/`-owner-`/`-repo-`.git`? to the end of the
string, the leftmost such match → `Remote{owner, repo}` (so a host
merely ending in `github.com` also matches); otherwise exactly
`owner/repo` with both segments nonempty and slash-free →
`Remote{owner, repo}`; anything else → `Local{path: input}`. -/
theorem C3_parse_classification (home cs : List Char) :
    (startsWithPathMarker cs = true →
      parseRepoIdentifier home cs = .localPath (expandTilde home cs)) ∧
    (startsWithPathMarker cs = false → HasUrl cs →
      ∃ o r pre suf, cs = pre ++ suf ∧ UrlTail suf o r ∧
        parseRepoIdentifier home cs = .github o r) ∧
    (startsWithPathMarker cs = false → ¬ HasUrl cs →
      ∀ o r, ShortForm cs o r → parseRepoIdentifier home cs = .github o r) ∧
    (startsWithPathMarker cs = false → ¬ HasUrl cs →
      (∀ o r, ¬ ShortForm cs o r) →
      parseRepoIdentifier home cs = .localPath cs) := by
  have hfgnone : ¬ HasUrl cs → findGithubMatch cs = none := by
    intro hnurl
    rcases hfg : findGithubMatch cs with _ | ⟨o₂, r₂⟩
    · rfl
    · exfalso
      obtain ⟨pre₂, suf₂, hcs₂, hurl₂⟩ := findGithubMatch_sound cs o₂ r₂ hfg
      exact hnurl ⟨pre₂, suf₂, o₂, r₂, hcs₂, hurl₂⟩
  refine ⟨?_, ?_, ?_, ?_⟩
  · intro hm
    simp [parseRepoIdentifier, hm]
  · intro hm hurl
    obtain ⟨pre, suf, o, r, hcs, hurlt⟩ := hurl
    have hsome : (findGithubMatch cs).isSome := by
      rw [hcs]
      exact findGithubMatch_complete pre suf o r hurlt
    rcases hfg : findGithubMatch cs with _ | ⟨o₂, r₂⟩
    · rw [hfg] at hsome; simp at hsome
    · obtain ⟨pre₂, suf₂, hcs₂, hurl₂⟩ := findGithubMatch_sound cs o₂ r₂ hfg
      refine ⟨o₂, r₂, pre₂, suf₂, hcs₂, hurl₂, ?_⟩
      simp [parseRepoIdentifier, hm, hfg]
  · intro hm hnurl o r hsf
    simp [parseRepoIdentifier, hm, hfgnone hnurl, matchShortForm_complete hsf]
  · intro hm hnurl hnsf
    have hsf : matchShortForm cs = none := by
      rcases hsf : matchShortForm cs with _ | ⟨o₂, r₂⟩
      · rfl
      · exact absurd (matchShortForm_sound hsf) (hnsf o₂ r₂)
    simp [parseRepoIdentifier, hm, hfgnone hnurl, hsf]

theorem C3_parse_classification_witness :
    ∃ o r pre suf,
      (['g', 'i', 't', 'h', 'u', 'b', '.', 'c', 'o', 'm', '/', 'a', '/', 'b',
        '.', 'g', 'i', 't'] : List Char) = pre ++ suf ∧ UrlTail suf o r ∧
      parseRepoIdentifier []
          ['g', 'i', 't', 'h', 'u', 'b', '.', 'c', 'o', 'm', '/', 'a', '/', 'b',
           '.', 'g', 'i', 't']
        = RepoIdentifier.github o r :=
  (C3_parse_classification []
      ['g', 'i', 't', 'h', 'u', 'b', '.', 'c', 'o', 'm', '/', 'a', '/', 'b',
       '.', 'g', 'i', 't']).2.1
    (by decide)
    ⟨[], ['g', 'i', 't', 'h', 'u', 'b', '.', 'c', 'o', 'm', '/', 'a', '/', 'b',
          '.', 'g', 'i', 't'], ['a'], ['b'], by decide,
      ⟨[], [], ['a', '/', 'b', '.', 'g', 'i', 't'],
        Or.inr (Or.inr rfl), Or.inr rfl, by decide,
        ⟨by decide, by decide, by decide, by decide, Or.inl (by decide)⟩⟩⟩

/-- Claim C4, counterexample: a non-zero exit of the commit-log
enumeration is NOT treated as a per-repository failure.  With the
work-tree check succeeding and the log invocation failing, the
collector still returns `Except.ok` (commit count 0, numstat data
still counted), so the repository is included, not omitted. -/
theorem C4_local_failure_counterexample :
    (LocalGitOracle.mk true (some "u@example.com") false [("h1", 0)] true
        [(some 3, some 1, ['a', '.', 't', 's'])]).logSuccess = false ∧
    ∃ m, computeLocalRepoMetrics
        (LocalGitOracle.mk true (some "u@example.com") false [("h1", 0)] true
          [(some 3, some 1, ['a', '.', 't', 's'])]) 0 86400000 = .ok m ∧
      m.commits = 0 ∧ m.linesAdded = 3 := by
  exact ⟨rfl, ⟨_, rfl, by decide, by decide⟩⟩

/-- Claim C4 (amended): only a non-zero exit of the work-tree check is
a per-repository failure (an error, which `computeGitMetrics` catches,
converts to a warning and answers by omitting the repository while
continuing); non-zero exits of the log or numstat invocations are
silently treated as empty output — the repository still contributes a
`RepoMetrics` (with zero commits, respectively zero line/file counts)
and is not omitted. -/
theorem C4_failure_handling (o : LocalGitOracle) (s e : Int) :
    (o.checkSuccess = false →
      computeLocalRepoMetrics o s e
        = .error "Not a git repository or path does not exist") ∧
    (o.checkSuccess = true →
      ∃ m, computeLocalRepoMetrics o s e = .ok m ∧
        (o.logSuccess = false → m.commits = 0 ∧ m.firstCommitTimes = []) ∧
        (o.numstatSuccess = false → m.linesAdded = 0 ∧ m.linesRemoved = 0 ∧
          m.filesChanged = 0 ∧ m.testFilesChanged = 0 ∧ m.docFilesChanged = 0)) ∧
    (∀ (collect : Repository → Except String RepoMetrics) (now : Int)
        (block : Block) (repo : Repository) (msg : String),
      collect repo = .error msg →
      (computeGitMetrics collect now block [repo]).1.repositories = [] ∧
      (computeGitMetrics collect now block [repo]).2 = [warnMsg repo.path msg]) := by
  refine ⟨?_, ?_, ?_⟩
  · intro h
    simp [computeLocalRepoMetrics, h]
  · intro h
    have hne : ¬ o.checkSuccess = false := by rw [h]; simp
    refine ⟨_, by simp only [computeLocalRepoMetrics, if_neg hne]; rfl, ?_, ?_⟩
    · intro hl
      constructor
      · simp [hl]
      · simp [hl, getFirstCommitPerDay, buildByDay]
    · intro hn
      refine ⟨by simp [hn], by simp [hn], by simp [hn], by simp [hn], by simp [hn]⟩
  · intro collect now block repo msg hc
    constructor
    · simp [computeGitMetrics, hc]
    · simp [computeGitMetrics, hc]

theorem C4_failure_handling_witness :
    (computeGitMetrics (fun _ => .error "boom") 0 ⟨"b", 0, none⟩
      [⟨"r1", none⟩]).1.repositories = [] ∧
    (computeGitMetrics (fun _ => .error "boom") 0 ⟨"b", 0, none⟩
      [⟨"r1", none⟩]).2 = [warnMsg "r1" "boom"] :=
  (C4_failure_handling ⟨true, none, true, [], true, []⟩ 0 0).2.2
    (fun _ => .error "boom") 0 ⟨"b", 0, none⟩ ⟨"r1", none⟩ "boom" rfl

theorem computeLocal_ok_avg {o : LocalGitOracle} {s e : Int} {m : RepoMetrics}
    (hm : computeLocalRepoMetrics o s e = .ok m) :
    m.avgCommitsPerDay = (m.commits : ℚ) / (windowDays s e : ℚ) := by
  by_cases h : o.checkSuccess = false
  · simp [computeLocalRepoMetrics, h] at hm
  · simp only [computeLocalRepoMetrics, if_neg h, Except.ok.injEq] at hm
    rw [← hm]

theorem computeGitHub_ok_avg {o : GitHubOracle} {s e : Int} {m : RepoMetrics}
    (hm : computeGitHubRepoMetrics o s e = some (.ok m)) :
    m.avgCommitsPerDay = (m.commits : ℚ) / (windowDays s e : ℚ) := by
  rcases hgo : goPages o.pages 51 1 [] with _ | er
  · unfold computeGitHubRepoMetrics at hm
    rw [hgo] at hm
    simp at hm
  · rcases er with e₂ | ⟨cs, w⟩
    · unfold computeGitHubRepoMetrics at hm
      rw [hgo] at hm
      simp at hm
    · unfold computeGitHubRepoMetrics at hm
      rw [hgo] at hm
      simp only [Option.some.injEq, Except.ok.injEq] at hm
      rw [← hm]
      rfl

/-- Claim C5: in both collectors, `avgCommitsPerDay` equals
`commits / max(1, ceil((end - start) in days))`; the clamped
denominator is at least 1 (never a division by zero, even for a
sub-day window), and zero qualifying commits yield an average of 0. -/
theorem C5_avg_commits_per_day :
    (∀ (o : LocalGitOracle) (s e : Int) (m : RepoMetrics),
      computeLocalRepoMetrics o s e = .ok m →
      m.avgCommitsPerDay = (m.commits : ℚ)
          / ((max 1 ⌈(((e - s : Int) : ℚ) / 86400000)⌉ : Int) : ℚ) ∧
      (1 : Int) ≤ max 1 ⌈(((e - s : Int) : ℚ) / 86400000)⌉ ∧
      (m.commits = 0 → m.avgCommitsPerDay = 0)) ∧
    (∀ (o : GitHubOracle) (s e : Int) (m : RepoMetrics),
      computeGitHubRepoMetrics o s e = some (.ok m) →
      m.avgCommitsPerDay = (m.commits : ℚ)
          / ((max 1 ⌈(((e - s : Int) : ℚ) / 86400000)⌉ : Int) : ℚ) ∧
      (1 : Int) ≤ max 1 ⌈(((e - s : Int) : ℚ) / 86400000)⌉ ∧
      (m.commits = 0 → m.avgCommitsPerDay = 0)) := by
  constructor
  · intro o s e m hm
    have havg := computeLocal_ok_avg hm
    refine ⟨havg, le_max_left _ _, ?_⟩
    intro h0
    rw [havg, h0]
    simp
  · intro o s e m hm
    have havg := computeGitHub_ok_avg hm
    refine ⟨havg, le_max_left _ _, ?_⟩
    intro h0
    rw [havg, h0]
    simp

theorem C5_avg_commits_per_day_witness :
    ∃ m, computeLocalRepoMetrics ⟨true, none, true, [], true, []⟩ 0 1 = .ok m ∧
      m.commits = 0 ∧
      m.avgCommitsPerDay = (m.commits : ℚ)
        / ((max 1 ⌈(((1 - 0 : Int) : ℚ) / 86400000)⌉ : Int) : ℚ) ∧
      m.avgCommitsPerDay = 0 := by
  refine ⟨_, rfl, by decide, ?_, ?_⟩
  · exact (C5_avg_commits_per_day.1 ⟨true, none, true, [], true, []⟩ 0 1 _ rfl).1
  · exact (C5_avg_commits_per_day.1 ⟨true, none, true, [], true, []⟩ 0 1 _ rfl).2.2
      (by decide)


/- Machinery for the pagination loop (claim C7). -/

theorem goPages_isSome (pages : Nat → PageResp) :
    ∀ (fuel page : Nat) (acc : List (String × Int)), 50 - page < fuel →
      (goPages pages fuel page acc).isSome := by
  intro fuel
  induction fuel with
  | zero => intro page acc h; omega
  | succ fuel ih =>
    intro page acc h
    unfold goPages
    rcases hp : pages page with data | _ | _ | s
    · by_cases h0 : data.length = 0
      · simp [h0]
      · by_cases h100 : data.length < 100
        · simp [h0, h100]
        · by_cases hcap : 50 < page + 1
          · simp [h0, h100, hcap]
          · simp only [if_neg h0, if_neg h100, if_neg hcap]
            exact ih (page + 1) (acc ++ data) (by omega)
    · simp
    · simp
    · simp

theorem joinCount_length (pages : Nat → PageResp) :
    ∀ (n page : Nat),
      (∀ i, page ≤ i → i < page + n → ∃ d, pages i = .ok d ∧ d.length = 100) →
      (joinCount pages page n).length = 100 * n := by
  intro n
  induction n with
  | zero => intro page _; simp [joinCount]
  | succ n ih =>
    intro page h
    obtain ⟨d, hd, hdlen⟩ := h page (le_refl _) (by omega)
    have hrest := ih (page + 1) (fun i h1 h2 => h i (by omega) (by omega))
    simp [joinCount, pageData, hd, hdlen, hrest]
    ring

theorem goPages_stop (pages : Nat → PageResp) :
    ∀ (fuel page j : Nat) (acc : List (String × Int)),
      50 - page < fuel → 1 ≤ page → page ≤ j → j ≤ 50 →
      (∀ i, page ≤ i → i < j → ∃ d, pages i = .ok d ∧ d.length = 100) →
      (∃ d, pages j = .ok d ∧ d.length < 100) →
      goPages pages fuel page acc
        = some (.ok (acc ++ joinCount pages page (j + 1 - page), false)) := by
  intro fuel
  induction fuel with
  | zero => intro page j acc h _ _ _ _ _; omega
  | succ fuel ih =>
    intro page j acc hfuel hp1 hpj hj50 hfull hsmall
    by_cases hpej : page = j
    · subst hpej
      obtain ⟨d, hd, hdlen⟩ := hsmall
      unfold goPages
      rw [hd, (by omega : page + 1 - page = 1)]
      by_cases h0 : d.length = 0
      · have hd0 : d = [] := List.length_eq_zero.mp h0
        simp [if_pos h0, joinCount, pageData, hd, hd0]
      · simp [if_neg h0, if_pos hdlen, joinCount, pageData, hd]
    · have hplt : page < j := by omega
      obtain ⟨d, hd, hdlen⟩ := hfull page (le_refl _) hplt
      unfold goPages
      rw [hd]
      simp only [if_neg (by omega : ¬ d.length = 0),
        if_neg (by omega : ¬ d.length < 100), if_neg (by omega : ¬ 50 < page + 1)]
      rw [ih (page + 1) j (acc ++ d) (by omega) (by omega) (by omega) hj50
        (fun i h1 h2 => hfull i (by omega) h2) hsmall]
      have hjc : joinCount pages page (j + 1 - page)
          = d ++ joinCount pages (page + 1) (j - page) := by
        rw [(by omega : j + 1 - page = (j - page) + 1)]
        simp [joinCount, pageData, hd]
      have hjc2 : j + 1 - (page + 1) = j - page := by omega
      rw [hjc, hjc2, List.append_assoc]

theorem goPages_cap (pages : Nat → PageResp) :
    ∀ (fuel page : Nat) (acc : List (String × Int)),
      50 - page < fuel → 1 ≤ page → page ≤ 50 →
      (∀ i, page ≤ i → i ≤ 50 → ∃ d, pages i = .ok d ∧ d.length = 100) →
      goPages pages fuel page acc
        = some (.ok (acc ++ joinCount pages page (51 - page), true)) := by
  intro fuel
  induction fuel with
  | zero => intro page acc h _ _ _; omega
  | succ fuel ih =>
    intro page acc hfuel hp1 hp50 hfull
    by_cases hpej : page = 50
    · subst hpej
      obtain ⟨d, hd, hdlen⟩ := hfull 50 (le_refl _) (le_refl _)
      have hdne : d ≠ [] := by
        intro hh
        rw [hh] at hdlen
        simp at hdlen
      unfold goPages
      rw [hd, (by omega : 51 - 50 = 1)]
      simp [if_neg (by omega : ¬ d.length = 0),
        if_neg (by omega : ¬ d.length < 100), if_pos (by omega : 50 < 50 + 1),
        joinCount, pageData, hd, hdne]
    · have hplt : page < 50 := by omega
      obtain ⟨d, hd, hdlen⟩ := hfull page (le_refl _) (by omega)
      unfold goPages
      rw [hd]
      simp only [if_neg (by omega : ¬ d.length = 0),
        if_neg (by omega : ¬ d.length < 100), if_neg (by omega : ¬ 50 < page + 1)]
      rw [ih (page + 1) (acc ++ d) (by omega) (by omega) (by omega)
        (fun i h1 h2 => hfull i (by omega) h2)]
      have hjc : joinCount pages page (51 - page)
          = d ++ joinCount pages (page + 1) (50 - page) := by
        rw [(by omega : 51 - page = (50 - page) + 1)]
        simp [joinCount, pageData, hd]
      have hjc2 : 51 - (page + 1) = 50 - page := by omega
      rw [hjc, hjc2, List.append_assoc]

theorem goPages_length_le (pages : Nat → PageResp) :
    ∀ (fuel page : Nat) (acc cs : List (String × Int)) (w : Bool),
      1 ≤ page → page ≤ 50 →
      (∀ i d, pages i = .ok d → d.length ≤ 100) →
      goPages pages fuel page acc = some (.ok (cs, w)) →
      cs.length ≤ acc.length + 100 * (51 - page) := by
  intro fuel
  induction fuel with
  | zero => intro page acc cs w _ _ _ h; simp [goPages] at h
  | succ fuel ih =>
    intro page acc cs w hp1 hp50 hbound h
    unfold goPages at h
    rcases hp : pages page with data | _ | _ | s <;> rw [hp] at h
    · have hdle := hbound page data hp
      by_cases h0 : data.length = 0
      · simp only [if_pos h0, Option.some.injEq, Except.ok.injEq,
          Prod.mk.injEq] at h
        rw [← h.1]
        omega
      · by_cases h100 : data.length < 100
        · simp only [if_neg h0, if_pos h100, Option.some.injEq, Except.ok.injEq,
            Prod.mk.injEq] at h
          rw [← h.1, List.length_append]
          omega
        · by_cases hcap : 50 < page + 1
          · simp only [if_neg h0, if_neg h100, if_pos hcap, Option.some.injEq,
              Except.ok.injEq, Prod.mk.injEq] at h
            rw [← h.1, List.length_append]
            omega
          · simp only [if_neg h0, if_neg h100, if_neg hcap] at h
            have := ih (page + 1) (acc ++ data) cs w (by omega) (by omega) hbound h
            rw [List.length_append] at this
            omega
    · simp at h
    · simp at h
    · simp at h

/-- Claim C7: for every sequence of pages, the pagination loop
terminates within its own `page > 50` cap (fuel 51 is never
exhausted); with pages of at most 100 commits it collects at most
5000; it stops at the first page shorter than 100 (collecting exactly
pages 1..j, no cap warning); and when 50 full pages arrive it stops
after page 50 with exactly 5000 commits and the cap warning set. -/
theorem C7_pagination (pages : Nat → PageResp) :
    (goPages pages 51 1 []).isSome ∧
    ((∀ i d, pages i = .ok d → d.length ≤ 100) →
      ∀ cs w, goPages pages 51 1 [] = some (.ok (cs, w)) → cs.length ≤ 5000) ∧
    (∀ j, 1 ≤ j → j ≤ 50 →
      (∀ i, 1 ≤ i → i < j → ∃ d, pages i = .ok d ∧ d.length = 100) →
      (∃ d, pages j = .ok d ∧ d.length < 100) →
      goPages pages 51 1 [] = some (.ok (joinCount pages 1 j, false))) ∧
    ((∀ i, 1 ≤ i → i ≤ 50 → ∃ d, pages i = .ok d ∧ d.length = 100) →
      goPages pages 51 1 [] = some (.ok (joinCount pages 1 50, true)) ∧
      (joinCount pages 1 50).length = 5000) := by
  refine ⟨goPages_isSome pages 51 1 [] (by omega), ?_, ?_, ?_⟩
  · intro hb cs w h
    have := goPages_length_le pages 51 1 [] cs w (by omega) (by omega) hb h
    simpa using this
  · intro j hj1 hj50 hfull hsmall
    have := goPages_stop pages 51 1 j [] (by omega) (by omega) hj1 hj50
      (fun i h1 h2 => hfull i h1 h2) hsmall
    simpa using this
  · intro hfull
    constructor
    · have := goPages_cap pages 51 1 [] (by omega) (by omega) (by omega) hfull
      simpa using this
    · have := joinCount_length pages 50 1 (fun i h1 h2 => hfull i h1 (by omega))
      simpa using this

theorem C7_pagination_witness :
    goPages
        (fun p => if p = 1 then PageResp.ok [("a", 5), ("b", 3), ("c", 9)]
          else PageResp.ok []) 51 1 []
      = some (.ok (joinCount
          (fun p => if p = 1 then PageResp.ok [("a", 5), ("b", 3), ("c", 9)]
            else PageResp.ok []) 1 1, false)) :=
  (C7_pagination _).2.2.1 1 (by omega) (by omega)
    (fun i h1 h2 => absurd h2 (by omega))
    ⟨[("a", 5), ("b", 3), ("c", 9)], by simp, by norm_num⟩

/- Machinery for the remote sampling phase (claims C6 and C10). -/

theorem filter_fst_length {α : Type} (f : Nat → Bool) (xs : List (Nat × α)) :
    (xs.filter (fun p => f p.1)).length = ((xs.map Prod.fst).filter f).length := by
  induction xs with
  | nil => rfl
  | cons x xs ih =>
    by_cases h : f x.1
    · simp [List.filter_cons, h, ih]
    · simp [List.filter_cons, h, ih]

theorem sampledOf_length (cs : List (String × Int)) :
    (sampledOf cs).length
      = ((List.range cs.length).filter
          (fun i => decide (i % sampleStep cs.length = 0))).length := by
  unfold sampledOf
  rw [List.length_map,
    filter_fst_length (fun i => decide (i % sampleStep cs.length = 0)) cs.enum,
    List.enum_map_fst]

theorem sampledOf_length_lt {cs : List (String × Int)} (h : 20 < cs.length) :
    (sampledOf cs).length < cs.length := by
  have hstep : 2 ≤ sampleStep cs.length := by unfold sampleStep; omega
  rw [sampledOf_length]
  have hlt : ((List.range cs.length).filter
        (fun i => decide (i % sampleStep cs.length = 0))).length
      < (List.range cs.length).length :=
    List.length_filter_lt_length_iff_exists.mpr
      ⟨1, List.mem_range.mpr (by omega),
        by simp [Nat.mod_eq_of_lt (show 1 < sampleStep cs.length by omega)]⟩
  simpa using hlt

theorem computeGitHub_eq {o : GitHubOracle} {s e : Int}
    {cs : List (String × Int)} {w : Bool}
    (hgo : goPages o.pages 51 1 [] = some (.ok (cs, w))) :
    computeGitHubRepoMetrics o s e = some (.ok (ghMetricsOf o s e cs)) := by
  unfold computeGitHubRepoMetrics
  rw [hgo]

theorem ghMetricsOf_fields {o : GitHubOracle} {s e : Int}
    {cs : List (String × Int)} (hn : 20 < cs.length) :
    (ghMetricsOf o s e cs).filesChanged
        = (((sampledOf cs).filterMap (fun c => o.detail c.1)).flatMap
            (fun d => d.files)).dedup.length ∧
    (ghMetricsOf o s e cs).testFilesChanged
        = ((((sampledOf cs).filterMap (fun c => o.detail c.1)).flatMap
            (fun d => d.files)).filter isTestFile).dedup.length ∧
    (ghMetricsOf o s e cs).docFilesChanged
        = ((((sampledOf cs).filterMap (fun c => o.detail c.1)).flatMap
            (fun d => d.files)).filter isDocFile).dedup.length ∧
    (ghMetricsOf o s e cs).linesAdded
        = jsRound (((((sampledOf cs).filterMap (fun c => o.detail c.1)).map
              (fun d => ((d.stats.map Prod.fst).getD 0 : Int))).sum : ℚ)
            * ((cs.length : ℚ) / ((sampledOf cs).length : ℚ))) ∧
    (ghMetricsOf o s e cs).linesRemoved
        = jsRound (((((sampledOf cs).filterMap (fun c => o.detail c.1)).map
              (fun d => ((d.stats.map Prod.snd).getD 0 : Int))).sum : ℚ)
            * ((cs.length : ℚ) / ((sampledOf cs).length : ℚ))) := by
  have hlt := sampledOf_length_lt hn
  unfold ghMetricsOf
  simp only [if_pos hn, if_pos hlt]
  refine ⟨?_, ?_, ?_, ?_, ?_⟩ <;> trivial

/-- Claim C10: when sampling is triggered (more than 20 candidate
commits), only `linesAdded` and `linesRemoved` are scaled by the
extrapolation factor and rounded; `filesChanged`, `testFilesChanged`
and `docFilesChanged` are the distinct-path counts observed in the
sampled commits alone, with no extrapolation applied. -/
theorem C10_sampling_frame (o : GitHubOracle) (s e : Int)
    (cs : List (String × Int)) (w : Bool) (m : RepoMetrics)
    (hgo : goPages o.pages 51 1 [] = some (.ok (cs, w)))
    (hn : 20 < cs.length)
    (hm : computeGitHubRepoMetrics o s e = some (.ok m)) :
    m.filesChanged
        = (((sampledOf cs).filterMap (fun c => o.detail c.1)).flatMap
            (fun d => d.files)).dedup.length ∧
    m.testFilesChanged
        = ((((sampledOf cs).filterMap (fun c => o.detail c.1)).flatMap
            (fun d => d.files)).filter isTestFile).dedup.length ∧
    m.docFilesChanged
        = ((((sampledOf cs).filterMap (fun c => o.detail c.1)).flatMap
            (fun d => d.files)).filter isDocFile).dedup.length ∧
    m.linesAdded
        = jsRound (((((sampledOf cs).filterMap (fun c => o.detail c.1)).map
              (fun d => ((d.stats.map Prod.fst).getD 0 : Int))).sum : ℚ)
            * ((cs.length : ℚ) / ((sampledOf cs).length : ℚ))) ∧
    m.linesRemoved
        = jsRound (((((sampledOf cs).filterMap (fun c => o.detail c.1)).map
              (fun d => ((d.stats.map Prod.snd).getD 0 : Int))).sum : ℚ)
            * ((cs.length : ℚ) / ((sampledOf cs).length : ℚ))) := by
  have heq := computeGitHub_eq (s := s) (e := e) hgo
  rw [heq] at hm
  simp only [Option.some.injEq, Except.ok.injEq] at hm
  subst hm
  exact ghMetricsOf_fields hn

theorem C10_sampling_frame_witness :
    (ghMetricsOf cexOracle 0 1
        ((List.range 25).map (fun i => ("", (i : Int))))).filesChanged
      = (((sampledOf ((List.range 25).map (fun i => ("", (i : Int))))).filterMap
          (fun c => cexOracle.detail c.1)).flatMap
            (fun d => d.files)).dedup.length := by
  have hgo : goPages cexOracle.pages 51 1 []
      = some (.ok ((List.range 25).map (fun i => ("", (i : Int))), false)) := rfl
  exact (C10_sampling_frame cexOracle 0 1
    ((List.range 25).map (fun i => ("", (i : Int)))) false _
    hgo (by decide) (computeGitHub_eq hgo)).1

/-- Claim C6, counterexample: with 25 candidate commits the sampler
keeps the indices divisible by `Math.ceil(25/20) = 2`, i.e. 13 commits
— not approximately 20 — and extrapolates by 25/13, not 25/20.  With
constant per-commit details of 77 additions the sampled sum is 1001
and the returned `linesAdded` is `round(1001 × 25/13) = 1925`, while
the claim's `round(sampledSum × 25/20)` would be 1251. -/
theorem C6_sampling_counterexample :
    ∃ m, computeGitHubRepoMetrics cexOracle 0 1 = some (.ok m) ∧
      m.commits = 25 ∧
      (sampledOf ((List.range 25).map (fun i => ("", (i : Int))))).length = 13 ∧
      m.linesAdded = 1925 ∧
      jsRound ((1001 : ℚ) * (25 / 20)) = 1251 ∧ (1925 : Int) ≠ 1251 := by
  have hgo : goPages cexOracle.pages 51 1 []
      = some (.ok ((List.range 25).map (fun i => ("", (i : Int))), false)) := rfl
  refine ⟨_, computeGitHub_eq hgo, by decide, by decide, ?_, ?_, by decide⟩
  · obtain ⟨_, _, _, hadd, _⟩ := @ghMetricsOf_fields cexOracle 0 1
      ((List.range 25).map (fun i => ("", (i : Int)))) (by decide)
    rw [hadd]
    rw [show ((((sampledOf ((List.range 25).map (fun i => ("", (i : Int))))).filterMap
          (fun c => cexOracle.detail c.1)).map
            (fun d => ((d.stats.map Prod.fst).getD 0 : Int))).sum) = 1001 from by decide]
    rw [show ((List.range 25).map (fun i => ("", (i : Int)))).length = 25 from by decide]
    rw [show (sampledOf ((List.range 25).map (fun i => ("", (i : Int))))).length = 13
      from by decide]
    show jsRound ((1001 : ℚ) * (((25 : Nat) : ℚ) / ((13 : Nat) : ℚ))) = 1925
    unfold jsRound
    norm_num
  · unfold jsRound
    norm_num

/-- Claim C6 (amended): when the candidate commit count exceeds 20 the
collector samples the commits whose index is divisible by
`Math.ceil(n/20)` — for 25 candidates that is 13 commits, not ~20 —
and extrapolates the line totals by `totalCommits / sampledCommits`
rounded to nearest: with 25 candidates, `linesAdded` is exactly
`round(sampledSum × 25/13)`. -/
theorem C6_sampling_extrapolation (o : GitHubOracle) (s e : Int)
    (l : List (String × Int)) (m : RepoMetrics)
    (hp1 : o.pages 1 = PageResp.ok l) (hlen : l.length = 25)
    (hm : computeGitHubRepoMetrics o s e = some (.ok m)) :
    (sampledOf l).length = 13 ∧
    m.commits = 25 ∧
    m.linesAdded = jsRound
        (((((sampledOf l).filterMap (fun c => o.detail c.1)).map
            (fun d => ((d.stats.map Prod.fst).getD 0 : Int))).sum : ℚ)
          * ((25 : ℚ) / 13)) := by
  have h13 : (sampledOf l).length = 13 := by
    rw [sampledOf_length, hlen]
    decide
  have hgo : goPages o.pages 51 1 [] = some (.ok (l, false)) := by
    have hstop := goPages_stop o.pages 51 1 1 [] (by omega) (by omega) (by omega)
      (by omega) (fun i h1 h2 => absurd h2 (by omega)) ⟨l, hp1, by omega⟩
    simpa [joinCount, pageData, hp1] using hstop
  have heq := computeGitHub_eq (s := s) (e := e) hgo
  rw [heq] at hm
  simp only [Option.some.injEq, Except.ok.injEq] at hm
  subst hm
  obtain ⟨_, _, _, hadd, _⟩ := @ghMetricsOf_fields o s e l (by omega)
  refine ⟨h13, hlen, ?_⟩
  rw [hadd, hlen, h13]
  norm_num

theorem C6_sampling_extrapolation_witness :
    (sampledOf ((List.range 25).map (fun i => ("", (i : Int))))).length = 13 ∧
    (ghMetricsOf cexOracle 0 1
        ((List.range 25).map (fun i => ("", (i : Int))))).commits = 25 ∧
    (ghMetricsOf cexOracle 0 1
        ((List.range 25).map (fun i => ("", (i : Int))))).linesAdded
      = jsRound
        (((((sampledOf ((List.range 25).map (fun i => ("", (i : Int))))).filterMap
            (fun c => cexOracle.detail c.1)).map
            (fun d => ((d.stats.map Prod.fst).getD 0 : Int))).sum : ℚ)
          * ((25 : ℚ) / 13)) := by
  have hgo : goPages cexOracle.pages 51 1 []
      = some (.ok ((List.range 25).map (fun i => ("", (i : Int))), false)) := rfl
  exact C6_sampling_extrapolation cexOracle 0 1
    ((List.range 25).map (fun i => ("", (i : Int)))) _
    rfl (by decide) (computeGitHub_eq hgo)

/- Machinery for aggregation over the configured repositories (C8). -/

theorem recordSet_append {m : List (String × RepoMetrics)} {k : String}
    {v : RepoMetrics} (hk : k ∉ m.map Prod.fst) :
    recordSet m k v = m ++ [(k, v)] := by
  induction m with
  | nil => rfl
  | cons hd tl ih =>
    obtain ⟨k₁, v₁⟩ := hd
    simp only [List.map_cons, List.mem_cons] at hk
    push_neg at hk
    have hne : ¬ k₁ = k := fun h => hk.1 h.symm
    simp only [recordSet, if_neg hne, List.cons_append]
    rw [ih hk.2]

theorem computeGitMetrics_fold (collect : Repository → Except String RepoMetrics) :
    ∀ (repos : List Repository) (m₀ : List (String × RepoMetrics))
      (w₀ : List String),
      (∀ r ∈ repos, r.path ∉ m₀.map Prod.fst) →
      (repos.map (·.path)).Nodup →
      repos.foldl
          (fun (acc : List (String × RepoMetrics) × List String) repo =>
            match collect repo with
            | .ok v => (recordSet acc.1 repo.path v, acc.2)
            | .error e => (acc.1, acc.2 ++ [warnMsg repo.path e]))
          (m₀, w₀)
        = (m₀ ++ repos.filterMap (fun r =>
              match collect r with
              | .ok v => some (r.path, v)
              | .error _ => none),
           w₀ ++ repos.filterMap (fun r =>
              match collect r with
              | .ok _ => none
              | .error e => some (warnMsg r.path e))) := by
  intro repos
  induction repos with
  | nil => intro m₀ w₀ _ _; simp
  | cons r rs ih =>
    intro m₀ w₀ hfresh hnodup
    simp only [List.map_cons, List.nodup_cons] at hnodup
    simp only [List.foldl_cons]
    rcases hc : collect r with e | v
    · show List.foldl _ (m₀, w₀ ++ [warnMsg r.path e]) rs = _
      rw [ih m₀ (w₀ ++ [warnMsg r.path e])
        (fun x hx => hfresh x (List.mem_cons_of_mem _ hx)) hnodup.2]
      simp [List.filterMap_cons, hc, List.append_assoc]
    · show List.foldl _ (recordSet m₀ r.path v, w₀) rs = _
      have hfresh₂ : ∀ x ∈ rs, x.path ∉ (recordSet m₀ r.path v).map Prod.fst := by
        intro x hx
        rw [recordSet_append (hfresh r (List.mem_cons_self _ _))]
        rw [List.map_append, List.mem_append]
        rintro (hmem | hmem)
        · exact hfresh x (List.mem_cons_of_mem _ hx) hmem
        · simp only [List.map_cons, List.map_nil, List.mem_singleton] at hmem
          exact hnodup.1 (hmem ▸ List.mem_map_of_mem (·.path) hx)
      rw [ih (recordSet m₀ r.path v) w₀ hfresh₂ hnodup.2]
      rw [recordSet_append (hfresh r (List.mem_cons_self _ _))]
      simp [List.filterMap_cons, hc, List.append_assoc]

/-- Claim C8: `computeGitMetrics` catches each failing repository at
the collection boundary: the repositories record holds exactly the
successful collections (keyed by path, in order), one warning naming
each failed repository is emitted, collection always reaches every
repository, the failed paths are omitted from the record, and totals
aggregate exactly the record's (successful) values. -/
theorem C8_skip_and_warn (collect : Repository → Except String RepoMetrics)
    (now : Int) (block : Block) (repos : List Repository)
    (hnd : (repos.map (·.path)).Nodup) :
    (computeGitMetrics collect now block repos).1.repositories
        = repos.filterMap (fun r =>
            match collect r with
            | .ok v => some (r.path, v)
            | .error _ => none) ∧
    (computeGitMetrics collect now block repos).2
        = repos.filterMap (fun r =>
            match collect r with
            | .ok _ => none
            | .error e => some (warnMsg r.path e)) ∧
    (computeGitMetrics collect now block repos).1.totals
        = aggregateRepoMetrics
            ((computeGitMetrics collect now block repos).1.repositories.map
              Prod.snd) ∧
    (∀ r ∈ repos, ∀ e, collect r = .error e →
      r.path ∉ (computeGitMetrics collect now block repos).1.repositories.map
        Prod.fst) ∧
    (∀ r ∈ repos, ∀ v, collect r = .ok v →
      (r.path, v) ∈ (computeGitMetrics collect now block repos).1.repositories) := by
  have hfold := computeGitMetrics_fold collect repos [] [] (by simp) hnd
  have hrepos : (computeGitMetrics collect now block repos).1.repositories
      = repos.filterMap (fun r =>
          match collect r with
          | .ok v => some (r.path, v)
          | .error _ => none) := by
    unfold computeGitMetrics
    rw [hfold]
    simp
  have hwarn : (computeGitMetrics collect now block repos).2
      = repos.filterMap (fun r =>
          match collect r with
          | .ok _ => none
          | .error e => some (warnMsg r.path e)) := by
    unfold computeGitMetrics
    rw [hfold]
    simp
  have htot : (computeGitMetrics collect now block repos).1.totals
      = aggregateRepoMetrics
          ((computeGitMetrics collect now block repos).1.repositories.map
            Prod.snd) := by
    conv_lhs => unfold computeGitMetrics
    conv_rhs => rw [hrepos]
    rw [hfold]
    simp
  refine ⟨hrepos, hwarn, htot, ?_, ?_⟩
  · intro r hr e he hmem
    rw [hrepos] at hmem
    rcases List.mem_map.mp hmem with ⟨p, hp, hppath⟩
    rcases List.mem_filterMap.mp hp with ⟨r₂, hr₂, hmatch⟩
    rcases hc₂ : collect r₂ with e₂ | v₂
    · rw [hc₂] at hmatch; cases hmatch
    · rw [hc₂] at hmatch
      injection hmatch with hmatch
      have hpath : r₂.path = r.path := by rw [← hppath, ← hmatch]
      have : r₂ = r := List.inj_on_of_nodup_map hnd hr₂ hr hpath
      rw [this] at hc₂
      rw [hc₂] at he
      cases he
  · intro r hr v hv
    rw [hrepos]
    exact List.mem_filterMap.mpr ⟨r, hr, by rw [hv]⟩

theorem C8_skip_and_warn_witness :
    (computeGitMetrics
        (fun r => if r.path = "good" then .ok ⟨1, 2, 3, 4, 5, 6, 7, [8]⟩
          else .error "bad")
        0 ⟨"b", 0, none⟩ [⟨"good", none⟩, ⟨"fail", none⟩]).1.repositories
      = [("good", ⟨1, 2, 3, 4, 5, 6, 7, [8]⟩)] ∧
    (computeGitMetrics
        (fun r => if r.path = "good" then .ok ⟨1, 2, 3, 4, 5, 6, 7, [8]⟩
          else .error "bad")
        0 ⟨"b", 0, none⟩ [⟨"good", none⟩, ⟨"fail", none⟩]).2
      = [warnMsg "fail" "bad"] := by
  have h := C8_skip_and_warn
    (fun r => if r.path = "good" then .ok ⟨1, 2, 3, 4, 5, 6, 7, [8]⟩
      else .error "bad")
    0 ⟨"b", 0, none⟩ [⟨"good", none⟩, ⟨"fail", none⟩] (by decide)
  exact ⟨by rw [h.1]; rfl, by rw [h.2.1]; rfl⟩

/-- Claim C9: a plain compute request with a cached document returns it
unchanged, writes nothing and performs zero collection calls; a
refresh request recomputes (one collection call per configured
repository) and overwrites the cached document in full, whatever the
cache held; and a plain request with an empty cache computes and
caches likewise. -/
theorem C9_cache_behavior (cached : Option GitMetrics)
    (collect : Repository → Except String RepoMetrics)
    (now : Int) (block : Block) (repos : List Repository) :
    (∀ d, cached = some d →
      runMetrics false cached collect now block repos = (d, none, 0)) ∧
    (runMetrics true cached collect now block repos
      = ((computeGitMetrics collect now block repos).1,
         some (computeGitMetrics collect now block repos).1, repos.length)) ∧
    (cached = none →
      runMetrics false cached collect now block repos
        = ((computeGitMetrics collect now block repos).1,
           some (computeGitMetrics collect now block repos).1, repos.length)) := by
  refine ⟨?_, ?_, ?_⟩
  · intro d hd
    simp [runMetrics, hd]
  · simp [runMetrics]
  · intro hd
    simp [runMetrics, hd]

theorem C9_cache_behavior_witness :
    runMetrics false
        (some ⟨"b", 0, 0, 0, [], ⟨0, 0, 0, 0, 0, 0, 0, []⟩⟩)
        (fun _ => .error "never called") 0 ⟨"b", 0, none⟩ []
      = (⟨"b", 0, 0, 0, [], ⟨0, 0, 0, 0, 0, 0, 0, []⟩⟩, none, 0) :=
  (C9_cache_behavior (some ⟨"b", 0, 0, 0, [], ⟨0, 0, 0, 0, 0, 0, 0, []⟩⟩)
    (fun _ => .error "never called") 0 ⟨"b", 0, none⟩ []).1 _ rfl
